import Mathlib

/-!
Verification of the core simulation-and-metrics engine of the btc-dac
repository (sources: `src/unnamed/part_000`, `src/scripts/app.js`; the two
files share the same core functions).

Modelling conventions:
* JS numbers are modelled as rationals (`ℚ`); float rounding, overflow and
  NaN/Infinity propagation are not modelled, except where the source guards
  on them (`isFinite`, the `-Infinity` peak seed), which are modelled
  explicitly (`Option` peaks, the guard conditions spelled out on `ℚ`).
* JS `Date` values are modelled as integer millisecond timestamps (`ℤ`);
  the source only compares dates and adds `stepDays * 86400000`.
* `buildStages` works on civil calendar dates; those are modelled by a
  dedicated `SDate` type (year/month/day) at day granularity, with the
  source's `next.getTime() - 86400000` modelled as the previous civil day.
* JS `array.findIndex` returning `-1` is modelled by `List.findIdx`
  returning the list length; the source's `< 0` guards become `< length`
  guards with the same branching.
-/

/-- A price sample `{t, p}` as produced by `loadCSV` (`t`: date in ms). -/
structure Pt where
  t : ℤ
  p : ℚ
deriving DecidableEq, Repr

/-- A timeline entry. The four simulators push objects with fields
`{t, p, cashIn, units, value}` plus, for DipBuy/TrendDCA, `cashPile`, and
for TrendDCA, `ma`.  We use one record with defaults for the extra
fields. -/
structure TLE where
  t : ℤ
  p : ℚ
  cashIn : ℚ
  units : ℚ
  value : ℚ
  cashPile : ℚ := 0
  ma : Option ℚ := none
deriving DecidableEq, Repr

/-- `{timeline, result: {cashIn, units, endValue}}` returned by each
simulator. -/
structure SimResult where
  timeline : List TLE
  cashIn : ℚ
  units : ℚ
  endValue : ℚ
deriving DecidableEq, Repr

/-- `timeline.at(-1)?.value || 0`. -/
def lastValue (tl : List TLE) : ℚ :=
  (tl.getLast?).elim 0 (fun e => e.value)

/-- `frequency === 'daily' ? 1 : (frequency === 'weekly' ? 7 : 30)`
(source line 83 of part_000 / line 66 of app.js). -/
def stepDays (frequency : String) : ℤ :=
  if frequency = "daily" then 1 else if frequency = "weekly" then 7 else 30

/-- The inner scan of the `buildScheduleIdx` loop:
`let j = iStart; while (j < data.length && data[j].t < cursor) j++` —
the first position `j ≥ iStart` with `data[j].t ≥ cursor` (or
`data.length` if there is none). -/
def jAt (data : List Pt) (iStart : ℕ) (cursor : ℤ) : ℕ :=
  iStart + (data.drop iStart).findIdx (fun d => decide (cursor ≤ d.t))

/-- The `while (cursor <= endDate)` loop of `buildScheduleIdx`: at each
tick, scan forward from `iStart` for the first position `j` with
`data[j].t >= cursor` (the source resets `j = iStart` every iteration),
push `j` if it is in range and its date is `<= endDate`, then advance
`cursor` by `step` ms. -/
def schedGo (data : List Pt) (iStart : ℕ) (endDate : ℤ) (step : ℤ)
    (hs : 0 < step) (cursor : ℤ) : List ℕ :=
  if h : cursor ≤ endDate then
    if jAt data iStart cursor < data.length ∧
        (data.getD (jAt data iStart cursor) ⟨0, 0⟩).t ≤ endDate then
      jAt data iStart cursor :: schedGo data iStart endDate step hs (cursor + step)
    else schedGo data iStart endDate step hs (cursor + step)
  else []
termination_by (endDate + 1 - cursor).toNat
decreasing_by all_goals omega

/-- `buildScheduleIdx(data, start, end, frequency)` (part_000 lines 75–92,
app.js lines 58–75). `stepDays * 86400000` is the cursor increment in ms. -/
def buildScheduleIdx (data : List Pt) (start endT : ℤ) (frequency : String) :
    List ℕ :=
  let iStart := data.findIdx (fun d => decide (start ≤ d.t))
  if h : iStart < data.length then
    let cursor := (data.getD iStart ⟨0, 0⟩).t
    let lastDate := (data.getD (data.length - 1) ⟨0, 0⟩).t
    let endDate := if endT ≤ lastDate then endT else lastDate
    schedGo data iStart endDate (stepDays frequency * 86400000)
      (by unfold stepDays; split <;> [norm_num; split <;> norm_num]) cursor
  else []

/-- In-window test of the simulators: the loop body runs unless
`t < start || t > end`. -/
def inWin (start endT : ℤ) (pt : Pt) : Prop := start ≤ pt.t ∧ pt.t ≤ endT

instance (start endT : ℤ) (pt : Pt) : Decidable (inWin start endT pt) :=
  inferInstanceAs (Decidable (start ≤ pt.t ∧ pt.t ≤ endT))

/-- The `for (i ...)` loop of `simulateDCA` (part_000 lines 100–112):
state `(cashIn, units, sPtr)`, processing `data[i], data[i+1], ...`.
Returns the final `(cashIn, units, sPtr)` and the timeline entries
produced. -/
def dcaGo (sch : List ℕ) (start endT : ℤ) (amount : ℚ) :
    ℕ → List Pt → ℚ → ℚ → ℕ → ℚ × ℚ × ℕ × List TLE
  | _, [], cashIn, units, sPtr => (cashIn, units, sPtr, [])
  | i, pt :: rest, cashIn, units, sPtr =>
    if inWin start endT pt then
      let buy := sPtr < sch.length ∧ sch.getD sPtr 0 = i
      let cashIn' := if buy then cashIn + amount else cashIn
      let units' := if buy then units + amount / pt.p else units
      let sPtr' := if buy then sPtr + 1 else sPtr
      let r := dcaGo sch start endT amount (i + 1) rest cashIn' units' sPtr'
      (r.1, r.2.1, r.2.2.1,
        ⟨pt.t, pt.p, cashIn', units', units' * pt.p, 0, none⟩ :: r.2.2.2)
    else dcaGo sch start endT amount (i + 1) rest cashIn units sPtr

/-- `simulateDCA(data, start, end, amount, frequency)` (part_000 lines
94–114, app.js lines 77–97). -/
def simulateDCA (data : List Pt) (start endT : ℤ) (amount : ℚ)
    (frequency : String) : SimResult :=
  let sch := buildScheduleIdx data start endT frequency
  let r := dcaGo sch start endT amount 0 data 0 0 0
  ⟨r.2.2.2, r.1, r.2.1, lastValue r.2.2.2⟩

/-- `simulateLumpSum(data, start, end, amount, frequency)` (part_000 lines
116–131, app.js lines 99–114). The `for (let i = iStart; i < len &&
data[i].t <= end; i++)` loop is `takeWhile` over `drop iStart`. -/
def simulateLumpSum (data : List Pt) (start endT : ℤ) (amount : ℚ)
    (frequency : String) : SimResult :=
  let periods := (buildScheduleIdx data start endT frequency).length
  let total := (periods : ℚ) * amount
  let iStart := data.findIdx (fun d => decide (start ≤ d.t))
  if iStart < data.length then
    let startPrice := (data.getD iStart ⟨0, 0⟩).p
    let units := total / startPrice
    let tl := ((data.drop iStart).takeWhile (fun d => decide (d.t ≤ endT))).map
      (fun d => ⟨d.t, d.p, total, units, units * d.p, 0, none⟩)
    ⟨tl, total, units, lastValue tl⟩
  else ⟨[], 0, 0, 0⟩

/-- The loop of `simulateDipBuy` (part_000 lines 141–159): state
`(cashIn, units, cashPile, peak)`.  The source seeds `peak = -Infinity`;
we model the peak as `Option ℚ` with `none` for `-Infinity`, so
`Math.max(peak, p)` becomes `some p` on the first in-window day.  The
source deploys when `isFinite(drawdown) && drawdown >= dipPct && cashPile
> 0`; over the rationals `drawdown = (peak - p) / peak` is finite exactly
when `peak ≠ 0` (the source's `-Infinity` seed never reaches this point,
because `peak` is updated to a real price first). -/
def dipGo (sch : List ℕ) (start endT : ℤ) (amount dipPct : ℚ) :
    ℕ → List Pt → ℚ → ℚ → ℚ → Option ℚ → ℚ × ℚ × ℚ × List TLE
  | _, [], cashIn, units, cashPile, _ => (cashIn, units, cashPile, [])
  | i, pt :: rest, cashIn, units, cashPile, peak =>
    if inWin start endT pt then
      let contrib := sch.contains i
      let cashIn' := if contrib then cashIn + amount else cashIn
      let pile' := if contrib then cashPile + amount else cashPile
      let peak' : ℚ := (peak.elim pt.p (fun q => max q pt.p))
      let deploy : Bool :=
        peak' ≠ 0 ∧ dipPct ≤ (peak' - pt.p) / peak' ∧ 0 < pile'
      let units' := if deploy then units + pile' / pt.p else units
      let pile'' := if deploy then 0 else pile'
      let r := dipGo sch start endT amount dipPct (i + 1) rest cashIn' units'
        pile'' (some peak')
      (r.1, r.2.1, r.2.2.1,
        ⟨pt.t, pt.p, cashIn', units', units' * pt.p + pile'', pile'', none⟩ ::
          r.2.2.2)
    else dipGo sch start endT amount dipPct (i + 1) rest cashIn units cashPile peak

/-- `simulateDipBuy(data, start, end, amount, frequency, dipPct = 0.2)`
(part_000 lines 133–161, app.js lines 116–144).  The `Set` built from the
schedule is modelled by `List.contains` membership, which has the same
semantics. -/
def simulateDipBuy (data : List Pt) (start endT : ℤ) (amount : ℚ)
    (frequency : String) (dipPct : ℚ) : SimResult :=
  let sch := buildScheduleIdx data start endT frequency
  let r := dipGo sch start endT amount dipPct 0 data 0 0 0 none
  ⟨r.2.2.2, r.1, r.2.1, lastValue r.2.2.2⟩

/-- `sma(arr, window)` (part_000 lines 63–72): `out[i]` is `NaN` while the
window has not filled (`i < window - 1`, and also for `window = 0`, where
the source computes `0/0 = NaN`), and otherwise the running-sum value,
which equals the sum of the trailing `window` entries divided by `window`.
`NaN` entries are modelled as `none`. -/
def sma (arr : List ℚ) (window : ℕ) : List (Option ℚ) :=
  (List.range arr.length).map (fun i =>
    if 1 ≤ window ∧ window ≤ i + 1 then
      some (((arr.drop (i + 1 - window)).take window).sum / (window : ℚ))
    else none)

/-- The loop of `simulateTrendDCA` (part_000 lines 172–186).  The trigger
`i >= maN - 1 && p > ma[i] && cashPile > 0` is modelled with the `NaN`
comparison `p > NaN` being false (`ma[i] = none` never triggers). -/
def trendGo (sch : List ℕ) (ma : List (Option ℚ)) (start endT : ℤ)
    (amount : ℚ) (maN : ℕ) :
    ℕ → List Pt → ℚ → ℚ → ℚ → ℚ × ℚ × ℚ × List TLE
  | _, [], cashIn, units, cashPile => (cashIn, units, cashPile, [])
  | i, pt :: rest, cashIn, units, cashPile =>
    if inWin start endT pt then
      let contrib := sch.contains i
      let cashIn' := if contrib then cashIn + amount else cashIn
      let pile' := if contrib then cashPile + amount else cashPile
      let mai := (ma.getD i none)
      let deploy : Bool :=
        (maN - 1 ≤ i ∧ 0 < pile' : Prop) &&
          (match mai with | none => false | some m => decide (m < pt.p))
      let units' := if deploy then units + pile' / pt.p else units
      let pile'' := if deploy then 0 else pile'
      let r := trendGo sch ma start endT amount maN (i + 1) rest cashIn' units' pile''
      (r.1, r.2.1, r.2.2.1,
        ⟨pt.t, pt.p, cashIn', units', units' * pt.p + pile'', pile'', mai⟩ ::
          r.2.2.2)
    else trendGo sch ma start endT amount maN (i + 1) rest cashIn units cashPile

/-- `simulateTrendDCA(data, start, end, amount, frequency, maN = 200)`
(part_000 lines 163–188, app.js lines 146–171). -/
def simulateTrendDCA (data : List Pt) (start endT : ℤ) (amount : ℚ)
    (frequency : String) (maN : ℕ) : SimResult :=
  let ma := sma (data.map (fun d => d.p)) maN
  let sch := buildScheduleIdx data start endT frequency
  let r := trendGo sch ma start endT amount maN 0 data 0 0 0
  ⟨r.2.2.2, r.1, r.2.1, lastValue r.2.2.2⟩

/-- The daily-returns loop of `metricsFromTimeline` (part_000 lines
202–208): for `i = 1 .. len-1`, `r = prev > 0 ? cur/prev - 1 : 0`, pushed
when `isFinite(r)`; over `ℚ` the computed `r` is always finite, so every
adjacent pair contributes one element. -/
def retsOf : List TLE → List ℚ
  | [] => []
  | [_] => []
  | a :: b :: rest =>
    (if 0 < a.value then b.value / a.value - 1 else 0) :: retsOf (b :: rest)

/-- The max-drawdown loop of `metricsFromTimeline` (part_000 lines
216–220): `peak = max(peak, v)` seeded at `-Infinity` (modelled `none`),
`mdd = min(mdd, v/peak - 1)` whenever `peak > 0`. -/
def mddGo : List ℚ → Option ℚ → ℚ → ℚ
  | [], _, m => m
  | v :: rest, peak, m =>
    let peak' : ℚ := peak.elim v (fun q => max q v)
    mddGo rest (some peak') (if 0 < peak' then min m (v / peak' - 1) else m)

/-- `Metrics` record; `cagr`, `volAnn`, `sharpe` involve `Math.pow` /
`Math.sqrt` and are modelled over `ℝ`. -/
structure Metrics where
  cashIn : ℚ
  endValue : ℚ
  pnl : ℚ
  rtn : ℚ
  cagr : ℝ
  volAnn : ℝ
  sharpe : ℝ
  mdd : ℚ

/-- Sample mean as computed by the source: `sum / (rets.length || 1)`. -/
def meanOf (rets : List ℚ) : ℚ :=
  rets.sum / (if rets.length = 0 then 1 else (rets.length : ℚ))

/-- Sample variance as computed by the source:
`Σ (x - mean)² / max(1, n - 1)` (Bessel's correction, with the `n ≤ 1`
degenerate divisor clamped to 1; note JS `Math.max(1, 0 - 1) = 1` and the
natural subtraction `0 - 1 = 0` give the same clamped divisor). -/
def varOf (rets : List ℚ) : ℚ :=
  (rets.map (fun x => (x - meanOf rets) ^ 2)).sum / (max 1 (rets.length - 1) : ℚ)

/-- `metricsFromTimeline(tl)` (part_000 lines 191–223, app.js lines
174–206): `{}` on an empty timeline is modelled as `none`. -/
noncomputable def metricsFromTimeline (tl : List TLE) : Option Metrics :=
  match tl with
  | [] => none
  | e :: rest =>
    let last := (e :: rest).getLast (by simp)
    let cashIn := last.cashIn
    let endValue := last.value
    let years : ℚ := ((last.t - e.t : ℤ) : ℚ) / 86400000 / (1461 / 4)
    let pnl := endValue - cashIn
    let rtn := if 0 < cashIn then endValue / cashIn - 1 else 0
    let cagr : ℝ :=
      if 0 < cashIn ∧ 0 < years then
        Real.rpow ((endValue / cashIn : ℚ) : ℝ) (1 / (years : ℝ)) - 1
      else 0
    let rets := retsOf (e :: rest)
    let variance := varOf rets
    let volDaily : ℝ := Real.sqrt (max 0 (variance : ℝ))
    let volAnn : ℝ := volDaily * Real.sqrt 365
    let sharpe : ℝ := if 0 < volAnn then cagr / volAnn else 0
    let mdd := mddGo ((e :: rest).map (fun x => x.value)) none 0
    some ⟨cashIn, endValue, pnl, rtn, cagr, volAnn, sharpe, mdd⟩

/-! ### Civil dates and `buildStages`

`buildStages` (part_000 lines 384–408) manipulates JS `Date`s through
`getFullYear`/`getMonth` and constructs month starts with
`new Date(year, month, 1)` (months 0-based, normalized by carrying
`month ≥ 12` into the year).  `next.getTime() - 86400000` is the previous
civil day.  We model a date at day granularity: year `y : ℤ`, month
`m : Fin 12` (0-based as in JS), and day-of-month stored 0-based as
`d : Fin 31` (so the civil day number is `d + 1`). -/

/-- A civil calendar date (JS `Date` at day granularity): month 0-based,
day-of-month stored 0-based in `d` (civil day = `d + 1`). -/
structure SDate where
  y : ℤ
  m : Fin 12
  d : Fin 31
deriving DecidableEq, Repr

/-- Injective linearization of `SDate` giving the JS time-value order on
civil dates (strictly monotone in lexicographic (y, m, d)). -/
def ord (x : SDate) : ℤ := 372 * x.y + 31 * (x.m : ℕ) + (x.d : ℕ)

/-- Gregorian leap-year rule (as implemented by the JS `Date` engine). -/
def isLeap (y : ℤ) : Prop := (y % 4 = 0 ∧ y % 100 ≠ 0) ∨ y % 400 = 0

instance (y : ℤ) : Decidable (isLeap y) :=
  inferInstanceAs (Decidable ((y % 4 = 0 ∧ y % 100 ≠ 0) ∨ y % 400 = 0))

/-- Number of days of 0-based month `m` of year `y`. -/
def daysInMonth (y : ℤ) (m : ℕ) : ℕ :=
  if m = 1 then (if isLeap y then 29 else 28)
  else if m = 3 ∨ m = 5 ∨ m = 8 ∨ m = 10 then 30
  else 31

/-- `x` represents an actual civil date: its day number `d + 1` exists in
its month. -/
def ValidD (x : SDate) : Prop := (x.d : ℕ) + 1 ≤ daysInMonth x.y (x.m : ℕ)

instance (x : SDate) : Decidable (ValidD x) :=
  inferInstanceAs (Decidable ((x.d : ℕ) + 1 ≤ daysInMonth x.y (x.m : ℕ)))

/-- `new Date(y, mm, 1)` for `mm ≥ 0`: JS normalizes the month by carrying
into the year. -/
def monthStartNorm (y : ℤ) (mm : ℕ) : SDate :=
  ⟨y + mm / 12, ⟨mm % 12, Nat.mod_lt _ (by norm_num)⟩, ⟨0, by norm_num⟩⟩

/-- The previous civil day (`date.getTime() - 86400000` at day
granularity). -/
def prevDay (x : SDate) : SDate :=
  if 0 < (x.d : ℕ) then ⟨x.y, x.m, ⟨(x.d : ℕ) - 1, by omega⟩⟩
  else if h : 0 < (x.m : ℕ) then
    ⟨x.y, ⟨(x.m : ℕ) - 1, by omega⟩,
      ⟨daysInMonth x.y ((x.m : ℕ) - 1) - 1,
        by unfold daysInMonth; split_ifs <;> omega⟩⟩
  else ⟨x.y - 1, ⟨11, by norm_num⟩, ⟨30, by norm_num⟩⟩

/-- `new Date(Math.min(a.getTime(), b.getTime()))`: the earlier of two
dates. -/
def minD (a b : SDate) : SDate := if ord a ≤ ord b then a else b

/-- `startOfQuarter` + 3 months, `cur.month + 1`, or `(year + 1, 0, 1)`:
the start of the calendar unit following `cur` (part_000 lines 389–396).
Any granularity other than `'year'` and `'quarter'` takes the month
branch, as in the source's `else`. -/
def nextStart (granularity : String) (cur : SDate) : SDate :=
  if granularity = "year" then ⟨cur.y + 1, ⟨0, by norm_num⟩, ⟨0, by norm_num⟩⟩
  else if granularity = "quarter" then
    monthStartNorm cur.y (3 * ((cur.m : ℕ) / 3) + 3)
  else monthStartNorm cur.y ((cur.m : ℕ) + 1)

/-- Stage labels (part_000 lines 399–403): `"YYYY"`, `"YYYY-Qn"`, or
`"YYYY-MM"` (month 1-based, zero-padded to two digits). -/
def stageLabel (granularity : String) (x : SDate) : String :=
  if granularity = "year" then toString x.y
  else if granularity = "quarter" then
    toString x.y ++ "-Q" ++ toString ((x.m : ℕ) / 3 + 1)
  else
    toString x.y ++ "-" ++
      (if (x.m : ℕ) + 1 < 10 then "0" else "") ++ toString ((x.m : ℕ) + 1)

/-- One stage `{start, end, label}`; the source's `end` field is named
`stop` (`end` is a Lean keyword). -/
structure Stage where
  start : SDate
  stop : SDate
  label : String
deriving DecidableEq, Repr

/-- The `while (cur <= end)` loop of `buildStages` (part_000 lines
387–406). -/
def stagesGo (granularity : String) (endD : SDate) (cur : SDate) :
    List Stage :=
  if h : ord cur ≤ ord endD then
    let nxt := nextStart granularity cur
    ⟨cur, minD endD (prevDay nxt), stageLabel granularity cur⟩ ::
      stagesGo granularity endD nxt
  else []
termination_by (ord endD + 1 - ord cur).toNat
decreasing_by
  have hm := cur.m.isLt
  have hd := cur.d.isLt
  have hlt : ord cur < ord (nextStart granularity cur) := by
    unfold nextStart monthStartNorm ord
    split_ifs <;> simp only [] <;> omega
  omega

/-- `buildStages(start, end, granularity)` (part_000 lines 384–408). -/
def buildStages (start endD : SDate) (granularity : String) : List Stage :=
  stagesGo granularity endD start

/-- Longest strictly-increasing prefix of a list. -/
def sip : List ℕ → List ℕ
  | [] => []
  | [x] => [x]
  | x :: y :: r => x :: (if x < y then sip (y :: r) else [])

/-- Number of matched schedule entries after the loop has passed indices
`< i`: the length of the `(< i)` initial segment of the strictly
increasing list `L`. -/
def tw (L : List ℕ) (i : ℕ) : ℕ :=
  (L.takeWhile (fun v => decide (v < i))).length

/-- Count of loop steps at which DipBuy/TrendDCA add a contribution,
starting from index `i` over the remaining data. -/
def contribCount (sch : List ℕ) (s e : ℤ) : ℕ → List Pt → ℕ
  | _, [] => 0
  | i, pt :: rest =>
    (if inWin s e pt ∧ sch.contains i then 1 else 0) +
      contribCount sch s e (i + 1) rest

/-- Adjacent-entry relation of claim C3: cash and units both
non-decreasing. -/
def MonoCU (x y : TLE) : Prop := x.cashIn ≤ y.cashIn ∧ x.units ≤ y.units

/-! ### Concrete inputs for counterexamples and witnesses -/

/-- Two daily samples separated by a two-day gap (a multi-day data gap
inside the window). -/
def exGap : List Pt := [⟨0, 100⟩, ⟨2 * 86400000, 100⟩]

/-- Two consecutive daily samples at a flat price. -/
def exFlat2 : List Pt := [⟨0, 100⟩, ⟨86400000, 100⟩]

/-- Two consecutive daily samples, price dropping from 100 to 50. -/
def exDip : List Pt := [⟨0, 100⟩, ⟨86400000, 50⟩]

/-- The daily-returns collection exactly as claim C5 words it: one element
`cur/prev - 1` per adjacent pair with `prev > 0`, and *no* element for a
pair whose previous value is `≤ 0`. -/
def specRetsC5 (tl : List TLE) : List ℚ :=
  (tl.zip tl.tail).filterMap
    (fun ab => if 0 < ab.1.value then some (ab.2.value / ab.1.value - 1) else none)


/-! ### Helper lemmas: the schedule -/

lemma daysInMonth_bounds (y : ℤ) (m : ℕ) :
    28 ≤ daysInMonth y m ∧ daysInMonth y m ≤ 31 := by
  unfold daysInMonth
  split_ifs <;> omega

lemma ord_lt_nextStart (granularity : String) (cur : SDate) :
    ord cur < ord (nextStart granularity cur) := by
  have hm := cur.m.isLt
  have hd := cur.d.isLt
  unfold nextStart monthStartNorm ord
  split_ifs <;> simp only [] <;> omega

lemma schedGo_pos {data : List Pt} {iStart : ℕ} {endDate step : ℤ}
    {hs : 0 < step} {cursor : ℤ} (h : cursor ≤ endDate) :
    schedGo data iStart endDate step hs cursor =
      if jAt data iStart cursor < data.length ∧
          (data.getD (jAt data iStart cursor) ⟨0, 0⟩).t ≤ endDate then
        jAt data iStart cursor ::
          schedGo data iStart endDate step hs (cursor + step)
      else schedGo data iStart endDate step hs (cursor + step) := by
  rw [schedGo.eq_def]
  simp only [h, dite_true, dif_pos]

lemma schedGo_neg {data : List Pt} {iStart : ℕ} {endDate step : ℤ}
    {hs : 0 < step} {cursor : ℤ} (h : ¬ cursor ≤ endDate) :
    schedGo data iStart endDate step hs cursor = [] := by
  rw [schedGo.eq_def]
  simp only [h, dite_false, dif_neg, not_false_iff]

/-- A weaker predicate finds an index no later than a stronger one. -/
lemma findIdx_le_of_imp {α : Type} (l : List α) (p q : α → Bool)
    (h : ∀ a, p a = true → q a = true) : l.findIdx q ≤ l.findIdx p := by
  induction l with
  | nil => simp
  | cons a t ih =>
    by_cases hq : q a = true
    · simp [List.findIdx_cons, hq]
    · have hp : p a = false := by
        cases hpa : p a
        · rfl
        · exact absurd (h a hpa) hq
      simp only [List.findIdx_cons, hp, hq, cond_false, Bool.false_eq_true]
      omega

/-- The forward scan is monotone in the cursor. -/
lemma jAt_mono {data : List Pt} {iStart : ℕ} {c c' : ℤ} (h : c ≤ c') :
    jAt data iStart c ≤ jAt data iStart c' := by
  unfold jAt
  have := findIdx_le_of_imp (data.drop iStart)
    (fun d => decide (c' ≤ d.t)) (fun d => decide (c ≤ d.t))
    (fun a ha => by simp_all; omega)
  omega

/-- If the scan result is in range, the element it finds has
`cursor ≤ date`. -/
lemma jAt_spec {data : List Pt} {iStart : ℕ} {c : ℤ}
    (h : jAt data iStart c < data.length) :
    c ≤ (data.getD (jAt data iStart c) ⟨0, 0⟩).t := by
  unfold jAt at h ⊢
  have hi : iStart ≤ data.length := by
    by_contra hi
    have : data.drop iStart = [] := List.drop_eq_nil_of_le (by omega)
    rw [this] at h
    simp at h
    omega
  have hfi : (data.drop iStart).findIdx (fun d => decide (c ≤ d.t)) <
      (data.drop iStart).length := by
    rw [List.length_drop]
    omega
  have := @List.findIdx_getElem _ (fun d => decide (c ≤ d.t))
    (data.drop iStart) hfi
  rw [List.getElem_drop] at this
  rw [List.getD_eq_getElem _ _ (by omega)]
  simpa using this

/-- Every position produced by the schedule loop is in range, dated no
earlier than the cursor at entry, and dated `≤ endDate`. -/
lemma schedGo_mem {data : List Pt} {iStart : ℕ} {endDate step : ℤ}
    {hs : 0 < step} :
    ∀ {cursor : ℤ} {j : ℕ}, j ∈ schedGo data iStart endDate step hs cursor →
      j < data.length ∧ cursor ≤ (data.getD j ⟨0, 0⟩).t ∧
        (data.getD j ⟨0, 0⟩).t ≤ endDate := by
  suffices H : ∀ (n : ℕ) (cursor : ℤ), (endDate + 1 - cursor).toNat ≤ n →
      ∀ {j : ℕ}, j ∈ schedGo data iStart endDate step hs cursor →
      j < data.length ∧ cursor ≤ (data.getD j ⟨0, 0⟩).t ∧
        (data.getD j ⟨0, 0⟩).t ≤ endDate by
    intro cursor j hj
    exact H _ cursor le_rfl hj
  intro n
  induction n with
  | zero =>
    intro cursor hn j hj
    rw [schedGo_neg (by omega)] at hj
    simp at hj
  | succ n ih =>
    intro cursor hn j hj
    by_cases hc : cursor ≤ endDate
    · rw [schedGo_pos hc] at hj
      have hrec : ∀ {j : ℕ}, j ∈ schedGo data iStart endDate step hs (cursor + step) →
          j < data.length ∧ cursor ≤ (data.getD j ⟨0, 0⟩).t ∧
            (data.getD j ⟨0, 0⟩).t ≤ endDate := by
        intro j hj
        obtain ⟨h1, h2, h3⟩ := ih (cursor + step) (by omega) hj
        exact ⟨h1, by omega, h3⟩
      split at hj
      · rename_i hguard
        rcases List.mem_cons.mp hj with rfl | hj
        · exact ⟨hguard.1, jAt_spec hguard.1, hguard.2⟩
        · exact hrec hj
      · exact hrec hj
    · rw [schedGo_neg hc] at hj
      simp at hj

/-- Every element of the schedule loop output is at least the scan result
at the entry cursor. -/
lemma schedGo_ge {data : List Pt} {iStart : ℕ} {endDate step : ℤ}
    {hs : 0 < step} :
    ∀ {cursor : ℤ} {j : ℕ}, j ∈ schedGo data iStart endDate step hs cursor →
      jAt data iStart cursor ≤ j := by
  suffices H : ∀ (n : ℕ) (cursor : ℤ), (endDate + 1 - cursor).toNat ≤ n →
      ∀ {j : ℕ}, j ∈ schedGo data iStart endDate step hs cursor →
      jAt data iStart cursor ≤ j by
    intro cursor j hj
    exact H _ cursor le_rfl hj
  intro n
  induction n with
  | zero =>
    intro cursor hn j hj
    rw [schedGo_neg (by omega)] at hj
    simp at hj
  | succ n ih =>
    intro cursor hn j hj
    by_cases hc : cursor ≤ endDate
    · rw [schedGo_pos hc] at hj
      have hrec : ∀ {j : ℕ},
          j ∈ schedGo data iStart endDate step hs (cursor + step) →
          jAt data iStart cursor ≤ j := by
        intro j hj
        exact le_trans (jAt_mono (by omega)) (ih (cursor + step) (by omega) hj)
      split at hj
      · rcases List.mem_cons.mp hj with rfl | hj
        · exact le_refl _
        · exact hrec hj
      · exact hrec hj
    · rw [schedGo_neg hc] at hj
      simp at hj

/-- The schedule loop output is non-decreasing. -/
lemma schedGo_chain {data : List Pt} {iStart : ℕ} {endDate step : ℤ}
    {hs : 0 < step} :
    ∀ {cursor : ℤ},
      List.Chain' (· ≤ ·) (schedGo data iStart endDate step hs cursor) := by
  suffices H : ∀ (n : ℕ) (cursor : ℤ), (endDate + 1 - cursor).toNat ≤ n →
      List.Chain' (· ≤ ·) (schedGo data iStart endDate step hs cursor) by
    intro cursor
    exact H _ cursor le_rfl
  intro n
  induction n with
  | zero =>
    intro cursor hn
    rw [schedGo_neg (by omega)]
    exact List.chain'_nil
  | succ n ih =>
    intro cursor hn
    by_cases hc : cursor ≤ endDate
    · rw [schedGo_pos hc]
      split
      · rw [List.chain'_cons']
        refine ⟨?_, ih (cursor + step) (by omega)⟩
        intro y hy
        have hmem : y ∈ schedGo data iStart endDate step hs (cursor + step) :=
          List.mem_of_mem_head? hy
        exact le_trans (jAt_mono (by omega)) (schedGo_ge hmem)
      · exact ih (cursor + step) (by omega)
    · rw [schedGo_neg hc]
      exact List.chain'_nil

/-- Every position of `buildScheduleIdx` is in range and dated inside
`[start, end]`. -/
lemma mem_buildScheduleIdx {data : List Pt} {start endT : ℤ} {f : String}
    {j : ℕ} (hj : j ∈ buildScheduleIdx data start endT f) :
    j < data.length ∧ start ≤ (data.getD j ⟨0, 0⟩).t ∧
      (data.getD j ⟨0, 0⟩).t ≤ endT := by
  unfold buildScheduleIdx at hj
  dsimp only at hj
  split at hj
  · rename_i hfound
    obtain ⟨h1, h2, h3⟩ := schedGo_mem hj
    have hsat : start ≤ (data.getD (data.findIdx
        (fun d => decide (start ≤ d.t))) ⟨0, 0⟩).t := by
      have := @List.findIdx_getElem _ (fun d => decide (start ≤ d.t)) data hfound
      rw [List.getD_eq_getElem _ _ hfound]
      simpa using this
    refine ⟨h1, le_trans hsat h2, le_trans h3 ?_⟩
    split
    · exact le_refl _
    · rename_i hlast
      omega
  · simp at hj

/-- The schedule is non-decreasing. -/
lemma buildScheduleIdx_chain {data : List Pt} {start endT : ℤ} {f : String} :
    List.Chain' (· ≤ ·) (buildScheduleIdx data start endT f) := by
  unfold buildScheduleIdx
  dsimp only
  split
  · exact schedGo_chain
  · exact List.chain'_nil

/-! ### Helper lemmas: DCA's sequential pointer

`simulateDCA` matches schedule entries with a sequential pointer
(`if (sPtr < schedule.length && i === schedule[sPtr]) sPtr++`).  When the
schedule repeats a position, the pointer gets stuck there: a contribution
happens exactly once per entry of the longest strictly-increasing prefix
of the schedule. -/

lemma sip_nil : sip [] = [] := rfl

lemma sip_length_le : ∀ l : List ℕ, (sip l).length ≤ l.length
  | [] => le_refl _
  | [_] => le_refl _
  | x :: y :: r => by
    by_cases h : x < y
    · have := sip_length_le (y :: r)
      simp only [sip, h, if_true]
      simpa using this
    · simp [sip, h]

lemma sip_getD : ∀ (l : List ℕ) (k : ℕ), k < (sip l).length →
      (sip l).getD k 0 = l.getD k 0
  | [], k, hk => by simp [sip] at hk
  | [x], k, hk => rfl
  | x :: y :: r, k, hk => by
    by_cases h : x < y
    · simp only [sip, h, if_true] at hk ⊢
      cases k with
      | zero => rfl
      | succ k =>
        simp only [List.getD_cons_succ]
        exact sip_getD (y :: r) k (by simpa using hk)
    · simp only [sip, h, if_false] at hk ⊢
      cases k with
      | zero => rfl
      | succ k => simp at hk

lemma sip_ge_head : ∀ (x : ℕ) (r : List ℕ) (z : ℕ), z ∈ sip (x :: r) → x ≤ z
  | x, [], z, hz => by simp [sip] at hz; omega
  | x, y :: r, z, hz => by
    by_cases h : x < y
    · simp only [sip, h, if_true] at hz
      rcases List.mem_cons.mp hz with rfl | hz
      · exact le_refl _
      · exact le_of_lt (lt_of_lt_of_le h (sip_ge_head y r z hz))
    · simp [sip, h] at hz
      omega

lemma sip_pairwise : ∀ l : List ℕ, List.Pairwise (· < ·) (sip l)
  | [] => List.Pairwise.nil
  | [x] => by simp [sip]
  | x :: y :: r => by
    by_cases h : x < y
    · simp only [sip, h, if_true]
      refine List.pairwise_cons.mpr ⟨?_, sip_pairwise (y :: r)⟩
      intro a ha
      exact lt_of_lt_of_le h (sip_ge_head y r a ha)
    · simp [sip, h]

lemma sip_subset : ∀ (l : List ℕ) (z : ℕ), z ∈ sip l → z ∈ l
  | [], z, hz => by simp [sip] at hz
  | [x], z, hz => hz
  | x :: y :: r, z, hz => by
    by_cases h : x < y
    · simp only [sip, h, if_true] at hz
      rcases List.mem_cons.mp hz with rfl | hz
      · exact List.mem_cons_self _ _
      · exact List.mem_cons_of_mem _ (sip_subset (y :: r) z hz)
    · simp only [sip, h, if_false] at hz
      rcases List.mem_cons.mp hz with rfl | hz
      · exact List.mem_cons_self _ _
      · simp at hz

lemma sip_eq_nil_iff : ∀ l : List ℕ, sip l = [] ↔ l = []
  | [] => by simp [sip]
  | [x] => by simp [sip]
  | x :: y :: r => by
    constructor
    · intro h
      by_cases hxy : x < y <;> simp [sip, hxy] at h
    · intro h
      simp at h

lemma sip_break : ∀ l : List ℕ, (sip l).length < l.length →
      l.getD ((sip l).length) 0 ≤ l.getD ((sip l).length - 1) 0
  | [], h => by simp at h
  | [x], h => by simp [sip] at h
  | x :: y :: r, h => by
    by_cases hxy : x < y
    · simp only [sip, hxy, if_true, List.length_cons] at h ⊢
      have hne : sip (y :: r) ≠ [] := by
        rw [ne_eq, sip_eq_nil_iff]
        simp
      have hpos : 0 < (sip (y :: r)).length := List.length_pos.mpr hne
      have hrec := sip_break (y :: r) (by simpa using h)
      have e1 : (x :: y :: r).getD ((sip (y :: r)).length + 1) 0 =
          (y :: r).getD ((sip (y :: r)).length) 0 := List.getD_cons_succ
      have e2 : (x :: y :: r).getD ((sip (y :: r)).length + 1 - 1) 0 =
          (y :: r).getD ((sip (y :: r)).length - 1) 0 := by
        have : (sip (y :: r)).length + 1 - 1 = ((sip (y :: r)).length - 1) + 1 := by
          omega
        rw [this, List.getD_cons_succ]
      rw [e1, e2]
      exact hrec
    · simp only [sip, hxy, if_false]
      have e1 : (x :: y :: r).getD (List.length [x]) 0 = y := rfl
      have e2 : (x :: y :: r).getD (List.length [x] - 1) 0 = x := rfl
      rw [e1, e2]
      omega

lemma sip_eq_self_of_chain : ∀ l : List ℕ, List.Chain' (· < ·) l → sip l = l
  | [], _ => rfl
  | [x], _ => rfl
  | x :: y :: r, h => by
    rw [List.chain'_cons] at h
    simp only [sip, h.1, if_true]
    rw [sip_eq_self_of_chain (y :: r) h.2]

lemma tw_nil (i : ℕ) : tw [] i = 0 := rfl

lemma tw_le : ∀ (L : List ℕ) (i : ℕ), tw L i ≤ L.length
  | [], _ => le_refl _
  | x :: r, i => by
    unfold tw
    rw [List.takeWhile_cons]
    split
    · simpa [tw] using tw_le r i
    · simp

lemma tw_zero : ∀ L : List ℕ, tw L 0 = 0
  | [] => rfl
  | x :: r => by
    unfold tw
    rw [List.takeWhile_cons]
    simp

lemma tw_all : ∀ (L : List ℕ) (i : ℕ), (∀ x ∈ L, x < i) → tw L i = L.length
  | [], _, _ => rfl
  | x :: r, i, h => by
    unfold tw
    rw [List.takeWhile_cons]
    have hx : x < i := h x (List.mem_cons_self _ _)
    simp only [hx, decide_eq_true_eq, if_pos, List.length_cons]
    have := tw_all r i (fun z hz => h z (List.mem_cons_of_mem _ hz))
    simpa [hx, tw] using this

lemma tw_full : ∀ (L : List ℕ) (i : ℕ), tw L i = L.length → ∀ x ∈ L, x < i
  | [], _, _, x, hx => by simp at hx
  | y :: r, i, h, x, hx => by
    unfold tw at h
    rw [List.takeWhile_cons] at h
    by_cases hy : y < i
    · simp only [hy, decide_eq_true_eq, if_pos] at h
      simp only [List.length_cons] at h
      rcases List.mem_cons.mp hx with rfl | hx
      · exact hy
      · exact tw_full r i (by simpa [hy, tw] using h) x hx
    · simp only [hy] at h
      simp at h

/-- The key transition fact for the sequential pointer: with
`k = tw L i` on a strictly increasing `L`, the pointer matches `i` exactly
when `i ∈ L`, and `tw` advances by one exactly in that case. -/
lemma tw_step : ∀ (L : List ℕ), List.Pairwise (· < ·) L → ∀ i : ℕ,
    ((tw L i < L.length ∧ L.getD (tw L i) 0 = i) ↔ i ∈ L) ∧
    (tw L (i + 1) = if i ∈ L then tw L i + 1 else tw L i)
  | [], _, i => by
    constructor
    · simp [tw]
    · simp [tw]
  | x :: r, hL, i => by
    have hLr := (List.pairwise_cons.mp hL).2
    have hxall := (List.pairwise_cons.mp hL).1
    have ih := tw_step r hLr i
    have htwc : tw (x :: r) i = if x < i then tw r i + 1 else 0 := by
      unfold tw
      rw [List.takeWhile_cons]
      by_cases h : x < i
      · simp [h, tw]
      · simp [h]
    have htwc1 : tw (x :: r) (i + 1) = if x < i + 1 then tw r (i + 1) + 1 else 0 := by
      unfold tw
      rw [List.takeWhile_cons]
      by_cases h : x < i + 1
      · simp [h, tw]
      · simp [h]
    by_cases hxi : x < i
    · -- head already passed
      have hine : ¬ i = x := by omega
      rw [htwc]
      simp only [hxi, if_true]
      constructor
      · constructor
        · intro ⟨h1, h2⟩
          have : tw r i < r.length ∧ r.getD (tw r i) 0 = i := by
            constructor
            · simpa using h1
            · simpa [List.getD_cons_succ] using h2
          exact List.mem_cons_of_mem _ (ih.1.mp this)
        · intro hmem
          rcases List.mem_cons.mp hmem with rfl | hmem
          · omega
          · have := ih.1.mpr hmem
            refine ⟨by simpa using this.1, by simpa [List.getD_cons_succ] using this.2⟩
      · rw [htwc1]
        simp only [show x < i + 1 by omega, if_true]
        rw [ih.2]
        by_cases hmem : i ∈ r
        · simp [hmem, List.mem_cons, hine]
        · simp [hmem, List.mem_cons, hine]
    · -- pointer at or before the head
      rw [htwc]
      simp only [hxi, if_false]
      by_cases hxe : x = i
      · subst hxe
        have hnotr : x ∉ r := fun hr => absurd (hxall x hr) (lt_irrefl x)
        constructor
        · simp [List.getD_cons_zero, List.mem_cons]
        · rw [htwc1]
          simp only [show x < x + 1 by omega, if_true]
          have : tw r (x + 1) = 0 := by
            cases r with
            | nil => rfl
            | cons z t =>
              have hz : x < z := hxall z (List.mem_cons_self _ _)
              unfold tw
              rw [List.takeWhile_cons]
              simp [show ¬ z < x + 1 by omega]
          simp [this, List.mem_cons]
      · -- x > i
        have hgt : i < x := by omega
        have hnot : i ∉ x :: r := by
          intro hmem
          rcases List.mem_cons.mp hmem with rfl | hmem
          · omega
          · exact absurd (hxall i hmem) (by omega)
        constructor
        · simp only [List.getD_cons_zero]
          constructor
          · intro ⟨_, h2⟩
            omega
          · intro hmem
            exact absurd hmem hnot
        · rw [htwc1]
          simp [hnot, show ¬ x < i + 1 by omega]

/-- Master invariant for the DCA loop: starting at index `i` with the
pointer at `tw (sip sch) i`, the run matches exactly the remaining entries
of the strictly increasing prefix `sip sch`, accumulating `amount` per
match. -/
lemma dcaGo_run (data : List Pt) (sch : List ℕ) (s e : ℤ) (a : ℚ)
    (Hin : ∀ x ∈ sch, x < data.length ∧ inWin s e (data.getD x ⟨0, 0⟩)) :
    ∀ (l : List Pt) (i : ℕ), l = data.drop i → ∀ (c u : ℚ) (k : ℕ),
      k = tw (sip sch) i →
      (dcaGo sch s e a i l c u k).1 =
          c + a * (((sip sch).length - k : ℕ) : ℚ) ∧
        (dcaGo sch s e a i l c u k).2.2.1 = (sip sch).length := by
  intro l
  induction l with
  | nil =>
    intro i hl c u k hk
    have hlen : data.length ≤ i := List.drop_eq_nil_iff.mp hl.symm
    have hfull : tw (sip sch) i = (sip sch).length := by
      apply tw_all
      intro x hx
      have := (Hin x (sip_subset sch x hx)).1
      omega
    rw [hk, hfull]
    simp [dcaGo]
  | cons pt rest ih =>
    intro i hl c u k hk
    have hi : i < data.length := by
      by_contra hni
      rw [(List.drop_eq_nil_iff).mpr (by omega)] at hl
      exact List.noConfusion hl
    have hdr := List.drop_eq_getElem_cons hi (l := data)
    rw [hdr] at hl
    injection hl with hpt hrest
    have hpt' : pt = data.getD i ⟨0, 0⟩ := by
      rw [List.getD_eq_getElem _ _ hi, hpt]
    have K := tw_step (sip sch) (sip_pairwise sch) i
    have hkle : k ≤ (sip sch).length := by rw [hk]; exact tw_le _ _
    -- the buy test agrees with membership of `i` in `sip sch`
    have hbuy : (k < sch.length ∧ sch.getD k 0 = i) ↔ i ∈ sip sch := by
      constructor
      · intro ⟨h1, h2⟩
        by_cases hkL : k < (sip sch).length
        · exact K.1.mp ⟨by omega, by rw [← hk] at *; rw [sip_getD sch k hkL]; omega⟩
        · exfalso
          have hkeq : k = (sip sch).length := by omega
          have hne : sch ≠ [] := by
            intro h
            rw [h] at h1
            simp at h1
          have hLne : sip sch ≠ [] := fun h => hne ((sip_eq_nil_iff sch).mp h)
          have hLpos : 0 < (sip sch).length := List.length_pos.mpr hLne
          have hbrk := sip_break sch (by omega)
          have hall := tw_full (sip sch) i (by omega)
          have hmem : (sip sch).getD ((sip sch).length - 1) 0 ∈ sip sch := by
            rw [List.getD_eq_getElem _ _ (by omega)]
            exact List.getElem_mem _
          have hlast : (sip sch).getD ((sip sch).length - 1) 0 < i :=
            hall _ hmem
          rw [hkeq] at h2
          rw [← sip_getD sch ((sip sch).length - 1) (by omega)] at hbrk
          omega
      · intro hmem
        have hK := K.1.mpr hmem
        rw [← hk] at hK
        refine ⟨by have := sip_length_le sch; omega, ?_⟩
        rw [← sip_getD sch k hK.1]
        exact hK.2
    by_cases hw : inWin s e pt
    · rw [show dcaGo sch s e a i (pt :: rest) c u k =
          (if sPtr' : k < sch.length ∧ sch.getD k 0 = i then
            (let r := dcaGo sch s e a (i + 1) rest (c + a) (u + a / pt.p) (k + 1)
             (r.1, r.2.1, r.2.2.1,
               ⟨pt.t, pt.p, c + a, u + a / pt.p, (u + a / pt.p) * pt.p, 0,
                 none⟩ :: r.2.2.2))
          else
            (let r := dcaGo sch s e a (i + 1) rest c u k
             (r.1, r.2.1, r.2.2.1,
               ⟨pt.t, pt.p, c, u, u * pt.p, 0, none⟩ :: r.2.2.2))) from by
          simp only [dcaGo, hw, if_true]
          split <;> rfl]
      by_cases hmem : i ∈ sip sch
      · have hk1 : k + 1 = tw (sip sch) (i + 1) := by
          rw [K.2, if_pos hmem, hk]
        have hkL : k < (sip sch).length := by
          have := K.1.mpr hmem
          omega
        obtain ⟨ha, hb⟩ := ih (i + 1) hrest (c + a) (u + a / pt.p) (k + 1) hk1
        rw [dif_pos (hbuy.mpr hmem)]
        refine ⟨?_, by simpa using hb⟩
        simp only []
        rw [ha]
        have : (((sip sch).length - k : ℕ) : ℚ) =
            (((sip sch).length - (k + 1) : ℕ) : ℚ) + 1 := by
          have : ((sip sch).length - k : ℕ) = ((sip sch).length - (k + 1) : ℕ) + 1 := by
            omega
          rw [this]
          push_cast
          ring
        rw [this]
        ring
      · have hk1 : k = tw (sip sch) (i + 1) := by
          rw [K.2, if_neg hmem, hk]
        obtain ⟨ha, hb⟩ := ih (i + 1) hrest c u k hk1
        rw [dif_neg (fun hc => hmem (hbuy.mp hc))]
        exact ⟨by simpa using ha, by simpa using hb⟩
    · rw [show dcaGo sch s e a i (pt :: rest) c u k =
          dcaGo sch s e a (i + 1) rest c u k from by
          simp only [dcaGo, hw, if_false]]
      have hnmem : i ∉ sip sch := by
        intro hmem
        have := (Hin i (sip_subset sch i hmem)).2
        rw [← hpt'] at this
        exact hw this
      have hk1 : k = tw (sip sch) (i + 1) := by
        rw [K.2, if_neg hnmem, hk]
      exact ih (i + 1) hrest c u k hk1

/-- DCA's total invested capital: `amount` times the length of the longest
strictly-increasing prefix of the schedule. -/
lemma dca_cashIn (data : List Pt) (s e : ℤ) (a : ℚ) (f : String) :
    (simulateDCA data s e a f).cashIn =
      a * (((sip (buildScheduleIdx data s e f)).length : ℕ) : ℚ) := by
  unfold simulateDCA
  dsimp only
  have := dcaGo_run data (buildScheduleIdx data s e f) s e a
    (fun x hx => by
      obtain ⟨h1, h2, h3⟩ := mem_buildScheduleIdx hx
      exact ⟨h1, h2, h3⟩)
    data 0 (by simp) 0 0 0 (by rw [tw_zero])
  rw [this.1]
  simp

/-- LumpSum's total invested capital: `amount` times the schedule
length. -/
lemma lumpSum_cashIn (data : List Pt) (s e : ℤ) (a : ℚ) (f : String) :
    (simulateLumpSum data s e a f).cashIn =
      (((buildScheduleIdx data s e f).length : ℕ) : ℚ) * a := by
  unfold simulateLumpSum
  dsimp only
  split
  · rfl
  · rename_i hns
    -- no start position: the schedule is empty too
    have : buildScheduleIdx data s e f = [] := by
      unfold buildScheduleIdx
      dsimp only
      rw [dif_neg hns]
    rw [this]
    simp

/-! ### Helper lemmas: set-membership contributions (DipBuy / TrendDCA) -/

/-- The DipBuy loop adds `amount` to `cashIn` exactly at steps counted by
`contribCount`, independently of the deployment state. -/
lemma dipGo_cashIn (sch : List ℕ) (s e : ℤ) (a dp : ℚ) :
    ∀ (l : List Pt) (i : ℕ) (c u pile : ℚ) (peak : Option ℚ),
      (dipGo sch s e a dp i l c u pile peak).1 =
        c + a * (contribCount sch s e i l : ℚ) := by
  intro l
  induction l with
  | nil =>
    intro i c u pile peak
    simp [dipGo, contribCount]
  | cons pt rest ih =>
    intro i c u pile peak
    by_cases hw : inWin s e pt
    · simp only [dipGo, hw, if_true, contribCount]
      by_cases hc : sch.contains i
      · simp only [hc, if_true, hw, true_and]
        rw [ih]
        push_cast
        ring
      · simp only [hc, if_false, hw, true_and, Bool.false_eq_true]
        rw [ih]
        push_cast
        ring
    · simp only [dipGo, hw, if_false, contribCount]
      rw [ih]
      simp [hw]

/-- Same fact for the TrendDCA loop. -/
lemma trendGo_cashIn (sch : List ℕ) (ma : List (Option ℚ)) (s e : ℤ)
    (a : ℚ) (maN : ℕ) :
    ∀ (l : List Pt) (i : ℕ) (c u pile : ℚ),
      (trendGo sch ma s e a maN i l c u pile).1 =
        c + a * (contribCount sch s e i l : ℚ) := by
  intro l
  induction l with
  | nil =>
    intro i c u pile
    simp [trendGo, contribCount]
  | cons pt rest ih =>
    intro i c u pile
    by_cases hw : inWin s e pt
    · simp only [trendGo, hw, if_true, contribCount]
      by_cases hc : sch.contains i
      · simp only [hc, if_true, hw, true_and]
        rw [ih]
        push_cast
        ring
      · simp only [hc, if_false, hw, true_and, Bool.false_eq_true]
        rw [ih]
        push_cast
        ring
    · simp only [trendGo, hw, if_false, contribCount]
      rw [ih]
      simp [hw]

/-- The contribution count over a suffix is the number of indices in its
range that are in-window scheduled positions. -/
lemma contribCount_filter (data : List Pt) (sch : List ℕ) (s e : ℤ) :
    ∀ (l : List Pt) (i : ℕ), l = data.drop i →
      contribCount sch s e i l =
        ((List.range' i l.length).filter
          (fun m => decide (inWin s e (data.getD m ⟨0, 0⟩)) &&
            sch.contains m)).length := by
  intro l
  induction l with
  | nil => intro i _; simp [contribCount]
  | cons pt rest ih =>
    intro i hl
    have hi : i < data.length := by
      by_contra hni
      rw [(List.drop_eq_nil_iff).mpr (by omega)] at hl
      exact List.noConfusion hl
    have hdr := List.drop_eq_getElem_cons hi (l := data)
    rw [hdr] at hl
    injection hl with hpt hrest
    have hpt' : pt = data.getD i ⟨0, 0⟩ := by
      rw [List.getD_eq_getElem _ _ hi, hpt]
    simp only [contribCount, List.length_cons, List.range'_succ]
    rw [List.filter_cons]
    by_cases hcond : (decide (inWin s e (data.getD i ⟨0, 0⟩)) &&
        sch.contains i) = true
    · rw [if_pos hcond, List.length_cons, ih (i + 1) hrest]
      have hx : inWin s e pt ∧ (sch.contains i : Prop) := by
        rw [hpt']
        simpa using hcond
      rw [if_pos hx]
      omega
    · rw [if_neg hcond, ih (i + 1) hrest]
      have hx : ¬ (inWin s e pt ∧ (sch.contains i : Prop)) := by
        rw [hpt']
        intro hcc
        exact hcond (by simpa using hcc)
      rw [if_neg hx]
      omega

/-- When every scheduled position is an in-window index, the contribution
count over the whole series is the number of distinct schedule entries. -/
lemma contribCount_dedup (data : List Pt) (sch : List ℕ) (s e : ℤ)
    (Hin : ∀ x ∈ sch, x < data.length ∧ inWin s e (data.getD x ⟨0, 0⟩)) :
    contribCount sch s e 0 data = sch.dedup.length := by
  rw [contribCount_filter data sch s e data 0 (by simp)]
  rw [show List.range' 0 data.length = List.range data.length from
    (List.range_eq_range' _).symm]
  apply List.Perm.length_eq
  apply List.perm_of_nodup_nodup_toFinset_eq
  · exact List.Nodup.filter _ (List.nodup_range _)
  · exact List.nodup_dedup _
  · ext m
    simp only [List.mem_toFinset, List.mem_filter, List.mem_range,
      List.mem_dedup, Bool.and_eq_true, decide_eq_true_eq]
    constructor
    · intro ⟨_, _, hc⟩
      exact List.elem_iff.mp hc
    · intro hm
      obtain ⟨h1, h2⟩ := Hin m hm
      exact ⟨h1, h2, List.elem_iff.mpr hm⟩

/-! ### Helper lemmas: monotone cash and units -/

/-- Unfolding of the DCA loop step on an in-window point. -/
lemma dcaGo_cons_win {sch : List ℕ} {s e : ℤ} {a : ℚ} {i : ℕ} {pt : Pt}
    {rest : List Pt} {c u : ℚ} {k : ℕ} (hw : inWin s e pt) :
    dcaGo sch s e a i (pt :: rest) c u k =
      if k < sch.length ∧ sch.getD k 0 = i then
        (let r := dcaGo sch s e a (i + 1) rest (c + a) (u + a / pt.p) (k + 1)
         (r.1, r.2.1, r.2.2.1,
           ⟨pt.t, pt.p, c + a, u + a / pt.p, (u + a / pt.p) * pt.p, 0,
             none⟩ :: r.2.2.2))
      else
        (let r := dcaGo sch s e a (i + 1) rest c u k
         (r.1, r.2.1, r.2.2.1,
           ⟨pt.t, pt.p, c, u, u * pt.p, 0, none⟩ :: r.2.2.2)) := by
  simp only [dcaGo, hw, if_true]
  split <;> rfl

/-- Unfolding of the DCA loop step on an out-of-window point. -/
lemma dcaGo_cons_skip {sch : List ℕ} {s e : ℤ} {a : ℚ} {i : ℕ} {pt : Pt}
    {rest : List Pt} {c u : ℚ} {k : ℕ} (hw : ¬ inWin s e pt) :
    dcaGo sch s e a i (pt :: rest) c u k =
      dcaGo sch s e a (i + 1) rest c u k := by
  simp only [dcaGo, hw, if_false]

/-- Unfolding of the DipBuy loop step on an in-window point. -/
lemma dipGo_cons_win {sch : List ℕ} {s e : ℤ} {a dp : ℚ} {i : ℕ} {pt : Pt}
    {rest : List Pt} {c u pile : ℚ} {peak : Option ℚ} (hw : inWin s e pt) :
    dipGo sch s e a dp i (pt :: rest) c u pile peak =
      (let contrib := sch.contains i
       let c' := if contrib then c + a else c
       let pile' := if contrib then pile + a else pile
       let peak' : ℚ := (peak.elim pt.p (fun q => max q pt.p))
       let dep : Bool :=
         decide (peak' ≠ 0 ∧ dp ≤ (peak' - pt.p) / peak' ∧ 0 < pile')
       let u' := if dep then u + pile' / pt.p else u
       let pile'' := if dep then 0 else pile'
       let r := dipGo sch s e a dp (i + 1) rest c' u' pile'' (some peak')
       (r.1, r.2.1, r.2.2.1,
         ⟨pt.t, pt.p, c', u', u' * pt.p + pile'', pile'', none⟩ ::
           r.2.2.2)) := by
  simp only [dipGo, hw, if_true]

/-- Unfolding of the DipBuy loop step on an out-of-window point. -/
lemma dipGo_cons_skip {sch : List ℕ} {s e : ℤ} {a dp : ℚ} {i : ℕ} {pt : Pt}
    {rest : List Pt} {c u pile : ℚ} {peak : Option ℚ} (hw : ¬ inWin s e pt) :
    dipGo sch s e a dp i (pt :: rest) c u pile peak =
      dipGo sch s e a dp (i + 1) rest c u pile peak := by
  simp only [dipGo, hw, if_false]

/-- Unfolding of the TrendDCA loop step on an in-window point. -/
lemma trendGo_cons_win {sch : List ℕ} {ma : List (Option ℚ)} {s e : ℤ}
    {a : ℚ} {maN : ℕ} {i : ℕ} {pt : Pt} {rest : List Pt} {c u pile : ℚ}
    (hw : inWin s e pt) :
    trendGo sch ma s e a maN i (pt :: rest) c u pile =
      (let contrib := sch.contains i
       let c' := if contrib then c + a else c
       let pile' := if contrib then pile + a else pile
       let mai := (ma.getD i none)
       let dep : Bool :=
         (decide (maN - 1 ≤ i ∧ 0 < pile') &&
           (match mai with | none => false | some m => decide (m < pt.p)))
       let u' := if dep then u + pile' / pt.p else u
       let pile'' := if dep then 0 else pile'
       let r := trendGo sch ma s e a maN (i + 1) rest c' u' pile''
       (r.1, r.2.1, r.2.2.1,
         ⟨pt.t, pt.p, c', u', u' * pt.p + pile'', pile'', mai⟩ ::
           r.2.2.2)) := by
  simp only [trendGo, hw, if_true]

/-- Unfolding of the TrendDCA loop step on an out-of-window point. -/
lemma trendGo_cons_skip {sch : List ℕ} {ma : List (Option ℚ)} {s e : ℤ}
    {a : ℚ} {maN : ℕ} {i : ℕ} {pt : Pt} {rest : List Pt} {c u pile : ℚ}
    (hw : ¬ inWin s e pt) :
    trendGo sch ma s e a maN i (pt :: rest) c u pile =
      trendGo sch ma s e a maN (i + 1) rest c u pile := by
  simp only [trendGo, hw, if_false]

lemma le_if_add (c a : ℚ) (b : Bool) (ha : 0 ≤ a) :
    c ≤ if b then c + a else c := by
  split
  · linarith
  · exact le_refl _

lemma le_deploy_dip (u pile pp dp peak : ℚ) (hpt : 0 < pp) :
    u ≤ if (decide (peak ≠ 0 ∧ dp ≤ (peak - pp) / peak ∧ 0 < pile)) then
          u + pile / pp
        else u := by
  split
  · rename_i h
    have h2 := (of_decide_eq_true h).2.2
    have := div_pos h2 hpt
    linarith
  · exact le_refl _

lemma le_deploy_trend (u pile pp : ℚ) (maN i : ℕ) (mai : Option ℚ)
    (hpt : 0 < pp) :
    u ≤ if (decide (maN - 1 ≤ i ∧ 0 < pile) &&
          (match mai with | none => false | some m => decide (m < pp))) then
          u + pile / pp
        else u := by
  split
  · rename_i h
    have h1 := (Bool.and_eq_true _ _).mp h
    have h2 := (of_decide_eq_true h1.1).2
    have := div_pos h2 hpt
    linarith
  · exact le_refl _

lemma dcaGo_mono (sch : List ℕ) (s e : ℤ) (a : ℚ) (ha : 0 ≤ a) :
    ∀ (l : List Pt), (∀ pt ∈ l, 0 < pt.p) → ∀ (i : ℕ) (c u : ℚ) (k : ℕ),
      List.Chain' MonoCU (dcaGo sch s e a i l c u k).2.2.2 ∧
        ∀ h ∈ (dcaGo sch s e a i l c u k).2.2.2.head?,
          c ≤ h.cashIn ∧ u ≤ h.units := by
  intro l
  induction l with
  | nil =>
    intro _ i c u k
    simp [dcaGo]
  | cons pt rest ih =>
    intro hp i c u k
    have hpt : 0 < pt.p := hp pt (List.mem_cons_self _ _)
    have hprest : ∀ q ∈ rest, 0 < q.p :=
      fun q hq => hp q (List.mem_cons_of_mem _ hq)
    have hstep : 0 ≤ a / pt.p := div_nonneg ha (le_of_lt hpt)
    by_cases hw : inWin s e pt
    · rw [dcaGo_cons_win hw]
      split
      · obtain ⟨hch, hhd⟩ := ih hprest (i + 1) (c + a) (u + a / pt.p) (k + 1)
        refine ⟨?_, ?_⟩
        · rw [List.chain'_cons']
          exact ⟨fun y hy => (hhd y hy), hch⟩
        · intro h hh
          simp only [List.head?_cons, Option.mem_some_iff] at hh
          subst hh
          exact ⟨by linarith, by linarith⟩
      · obtain ⟨hch, hhd⟩ := ih hprest (i + 1) c u k
        refine ⟨?_, ?_⟩
        · rw [List.chain'_cons']
          exact ⟨fun y hy => (hhd y hy), hch⟩
        · intro h hh
          simp only [List.head?_cons, Option.mem_some_iff] at hh
          subst hh
          exact ⟨le_refl _, le_refl _⟩
    · rw [dcaGo_cons_skip hw]
      exact ih hprest (i + 1) c u k

lemma dipGo_mono (sch : List ℕ) (s e : ℤ) (a dp : ℚ) (ha : 0 ≤ a) :
    ∀ (l : List Pt), (∀ pt ∈ l, 0 < pt.p) →
      ∀ (i : ℕ) (c u pile : ℚ) (peak : Option ℚ),
      List.Chain' MonoCU (dipGo sch s e a dp i l c u pile peak).2.2.2 ∧
        ∀ h ∈ (dipGo sch s e a dp i l c u pile peak).2.2.2.head?,
          c ≤ h.cashIn ∧ u ≤ h.units := by
  intro l
  induction l with
  | nil =>
    intro _ i c u pile peak
    simp [dipGo]
  | cons pt rest ih =>
    intro hp i c u pile peak
    have hpt : 0 < pt.p := hp pt (List.mem_cons_self _ _)
    have hprest : ∀ q ∈ rest, 0 < q.p :=
      fun q hq => hp q (List.mem_cons_of_mem _ hq)
    by_cases hw : inWin s e pt
    · rw [dipGo_cons_win hw]
      dsimp only
      have hcc : c ≤ (if (sch.contains i : Bool) then c + a else c) :=
        le_if_add c a _ ha
      have huu := le_deploy_dip u
        (if (sch.contains i : Bool) then pile + a else pile) pt.p dp
        (peak.elim pt.p (fun q => max q pt.p)) hpt
      obtain ⟨hch, hhd⟩ := ih hprest (i + 1) _ _ _ _
      refine ⟨?_, ?_⟩
      · rw [List.chain'_cons']
        exact ⟨fun y hy => (hhd y hy), hch⟩
      · intro h hh
        simp only [List.head?_cons, Option.mem_some_iff] at hh
        subst hh
        exact ⟨hcc, huu⟩
    · rw [dipGo_cons_skip hw]
      exact ih hprest (i + 1) c u pile peak

lemma trendGo_mono (sch : List ℕ) (ma : List (Option ℚ)) (s e : ℤ)
    (a : ℚ) (maN : ℕ) (ha : 0 ≤ a) :
    ∀ (l : List Pt), (∀ pt ∈ l, 0 < pt.p) →
      ∀ (i : ℕ) (c u pile : ℚ),
      List.Chain' MonoCU (trendGo sch ma s e a maN i l c u pile).2.2.2 ∧
        ∀ h ∈ (trendGo sch ma s e a maN i l c u pile).2.2.2.head?,
          c ≤ h.cashIn ∧ u ≤ h.units := by
  intro l
  induction l with
  | nil =>
    intro _ i c u pile
    simp [trendGo]
  | cons pt rest ih =>
    intro hp i c u pile
    have hpt : 0 < pt.p := hp pt (List.mem_cons_self _ _)
    have hprest : ∀ q ∈ rest, 0 < q.p :=
      fun q hq => hp q (List.mem_cons_of_mem _ hq)
    by_cases hw : inWin s e pt
    · rw [trendGo_cons_win hw]
      dsimp only
      have hcc : c ≤ (if (sch.contains i : Bool) then c + a else c) :=
        le_if_add c a _ ha
      have huu := le_deploy_trend u
        (if (sch.contains i : Bool) then pile + a else pile) pt.p maN i
        (ma.getD i none) hpt
      obtain ⟨hch, hhd⟩ := ih hprest (i + 1) _ _ _
      refine ⟨?_, ?_⟩
      · rw [List.chain'_cons']
        exact ⟨fun y hy => (hhd y hy), hch⟩
      · intro h hh
        simp only [List.head?_cons, Option.mem_some_iff] at hh
        subst hh
        exact ⟨hcc, huu⟩
    · rw [trendGo_cons_skip hw]
      exact ih hprest (i + 1) c u pile

lemma lumpSum_mono (data : List Pt) (s e : ℤ) (a : ℚ) (f : String) :
    List.Chain' MonoCU (simulateLumpSum data s e a f).timeline := by
  unfold simulateLumpSum
  dsimp only
  split
  · rw [List.chain'_map]
    generalize (data.drop (data.findIdx (fun d => decide (s ≤ d.t)))).takeWhile
      (fun d => decide (d.t ≤ e)) = l
    induction l with
    | nil => exact List.chain'_nil
    | cons x r ih =>
      rw [List.chain'_cons']
      exact ⟨fun y _ => ⟨le_refl _, le_refl _⟩, ih⟩
  · exact List.chain'_nil

/-! ### Helper lemmas: DipBuy value accounting, empty windows, returns -/

/-- Every DipBuy timeline entry satisfies
`value = units * price + cashPile`. -/
lemma dipGo_value (sch : List ℕ) (s e : ℤ) (a dp : ℚ) :
    ∀ (l : List Pt) (i : ℕ) (c u pile : ℚ) (peak : Option ℚ),
      ∀ en ∈ (dipGo sch s e a dp i l c u pile peak).2.2.2,
        en.value = en.units * en.p + en.cashPile := by
  intro l
  induction l with
  | nil =>
    intro i c u pile peak en hen
    simp [dipGo] at hen
  | cons pt rest ih =>
    intro i c u pile peak en hen
    by_cases hw : inWin s e pt
    · rw [dipGo_cons_win hw] at hen
      dsimp only at hen
      rcases List.mem_cons.mp hen with rfl | hen
      · rfl
      · exact ih (i + 1) _ _ _ _ en hen
    · rw [dipGo_cons_skip hw] at hen
      exact ih (i + 1) c u pile peak en hen

/-- When no point is in the window, the DCA loop is a no-op. -/
lemma dcaGo_empty (sch : List ℕ) (s e : ℤ) (a : ℚ) :
    ∀ (l : List Pt), (∀ pt ∈ l, ¬ inWin s e pt) → ∀ (i : ℕ) (c u : ℚ) (k : ℕ),
      dcaGo sch s e a i l c u k = (c, u, k, []) := by
  intro l
  induction l with
  | nil => intro _ i c u k; rfl
  | cons pt rest ih =>
    intro hnw i c u k
    rw [dcaGo_cons_skip (hnw pt (List.mem_cons_self _ _))]
    exact ih (fun q hq => hnw q (List.mem_cons_of_mem _ hq)) (i + 1) c u k

/-- When no point is in the window, the DipBuy loop is a no-op. -/
lemma dipGo_empty (sch : List ℕ) (s e : ℤ) (a dp : ℚ) :
    ∀ (l : List Pt), (∀ pt ∈ l, ¬ inWin s e pt) →
      ∀ (i : ℕ) (c u pile : ℚ) (peak : Option ℚ),
      dipGo sch s e a dp i l c u pile peak = (c, u, pile, []) := by
  intro l
  induction l with
  | nil => intro _ i c u pile peak; rfl
  | cons pt rest ih =>
    intro hnw i c u pile peak
    rw [dipGo_cons_skip (hnw pt (List.mem_cons_self _ _))]
    exact ih (fun q hq => hnw q (List.mem_cons_of_mem _ hq)) (i + 1) c u pile peak

/-- When no point is in the window, the TrendDCA loop is a no-op. -/
lemma trendGo_empty (sch : List ℕ) (ma : List (Option ℚ)) (s e : ℤ)
    (a : ℚ) (maN : ℕ) :
    ∀ (l : List Pt), (∀ pt ∈ l, ¬ inWin s e pt) →
      ∀ (i : ℕ) (c u pile : ℚ),
      trendGo sch ma s e a maN i l c u pile = (c, u, pile, []) := by
  intro l
  induction l with
  | nil => intro _ i c u pile; rfl
  | cons pt rest ih =>
    intro hnw i c u pile
    rw [trendGo_cons_skip (hnw pt (List.mem_cons_self _ _))]
    exact ih (fun q hq => hnw q (List.mem_cons_of_mem _ hq)) (i + 1) c u pile

/-- When no point is in the window, the schedule is empty. -/
lemma buildScheduleIdx_empty (data : List Pt) (s e : ℤ) (f : String)
    (hnw : ∀ pt ∈ data, ¬ inWin s e pt) :
    buildScheduleIdx data s e f = [] := by
  by_contra hne
  obtain ⟨j, hj⟩ := List.exists_mem_of_ne_nil _ hne
  obtain ⟨h1, h2, h3⟩ := mem_buildScheduleIdx hj
  have hmem : data.getD j ⟨0, 0⟩ ∈ data := by
    rw [List.getD_eq_getElem _ _ h1]
    exact List.getElem_mem _
  exact hnw _ hmem ⟨h2, h3⟩

/-- The element found by `findIndex(d => d.t >= start)` satisfies the
predicate. -/
lemma findIdx_start_spec (data : List Pt) (s : ℤ)
    (h : data.findIdx (fun d => decide (s ≤ d.t)) < data.length) :
    s ≤ (data.getD (data.findIdx (fun d => decide (s ≤ d.t))) ⟨0, 0⟩).t := by
  have := @List.findIdx_getElem _ (fun d => decide (s ≤ d.t)) data h
  rw [List.getD_eq_getElem _ _ h]
  simpa using this

/-- The daily-returns list, pair by pair: every adjacent pair contributes
exactly one element, `cur/prev - 1` when `prev > 0` and `0` otherwise. -/
lemma retsOf_zip : ∀ tl : List TLE,
    retsOf tl = (tl.zip tl.tail).map
      (fun ab => if 0 < ab.1.value then ab.2.value / ab.1.value - 1 else 0)
  | [] => rfl
  | [_] => rfl
  | a :: b :: rest => by
    simp only [retsOf, List.tail_cons, List.zip_cons_cons, List.map_cons]
    rw [retsOf_zip (b :: rest)]
    simp

/-- The source's sample variance is non-negative. -/
lemma varOf_nonneg (rets : List ℚ) : 0 ≤ varOf rets := by
  unfold varOf
  apply div_nonneg
  · apply List.sum_nonneg
    intro x hx
    obtain ⟨y, _, rfl⟩ := List.mem_map.mp hx
    positivity
  · have h1 : (1 : ℚ) ≤ max 1 ((rets.length : ℚ) - 1) := le_max_left _ _
    linarith

/-- The annualized volatility of a non-empty timeline is
`sqrt(varOf(retsOf tl)) * sqrt(365)` (the source's `max(0, ·)` clamp is
redundant because the variance is non-negative). -/
lemma metrics_volAnn (tl : List TLE) (m : Metrics)
    (hm : metricsFromTimeline tl = some m) :
    m.volAnn = Real.sqrt ((varOf (retsOf tl) : ℚ) : ℝ) * Real.sqrt 365 := by
  cases tl with
  | nil => simp [metricsFromTimeline] at hm
  | cons e rest =>
    simp only [metricsFromTimeline] at hm
    injection hm with hm
    subst hm
    simp only []
    congr 1
    congr 1
    rw [max_eq_right]
    exact_mod_cast varOf_nonneg _

/-! ### Helper lemmas: stage tiling -/

lemma ord_prevDay_lt (x : SDate) : ord (prevDay x) < ord x := by
  unfold prevDay
  split_ifs with h1 h2
  · unfold ord
    simp only []
    omega
  · have hb := daysInMonth_bounds x.y ((x.m : ℕ) - 1)
    unfold ord
    simp only []
    omega
  · unfold ord
    simp only []
    omega

lemma nextStart_d (g : String) (cur : SDate) :
    ((nextStart g cur).d : ℕ) = 0 := by
  unfold nextStart monthStartNorm
  split_ifs <;> rfl

lemma nextStart_valid (g : String) (cur : SDate) : ValidD (nextStart g cur) := by
  unfold ValidD
  rw [nextStart_d]
  have := daysInMonth_bounds (nextStart g cur).y ((nextStart g cur).m : ℕ)
  omega

/-- No civil date lies strictly between the day before a month start and
the month start: any valid date earlier than a month start is at most its
previous day. -/
lemma le_prevDay_of_lt {x ms : SDate} (hx : ValidD x) (hms : (ms.d : ℕ) = 0)
    (h : ord x < ord ms) : ord x ≤ ord (prevDay ms) := by
  have hxm := x.m.isLt
  have hxd := x.d.isLt
  have hmm := ms.m.isLt
  by_cases hm : 0 < (ms.m : ℕ)
  · have hD := daysInMonth_bounds ms.y ((ms.m : ℕ) - 1)
    have hpd : ord (prevDay ms) =
        372 * ms.y + 31 * (((ms.m : ℕ) - 1 : ℕ) : ℤ) +
          (((daysInMonth ms.y ((ms.m : ℕ) - 1) - 1 : ℕ)) : ℤ) := by
      unfold prevDay
      rw [if_neg (by omega), dif_pos hm]
      unfold ord
      simp only []
    rw [hpd]
    by_contra hcon
    push_neg at hcon
    unfold ord at h hcon
    have hkey : x.y = ms.y ∧ (x.m : ℕ) + 1 = (ms.m : ℕ) ∧
        daysInMonth ms.y ((ms.m : ℕ) - 1) ≤ (x.d : ℕ) := by
      omega
    have hv : (x.d : ℕ) + 1 ≤ daysInMonth x.y (x.m : ℕ) := hx
    rw [hkey.1, show (x.m : ℕ) = (ms.m : ℕ) - 1 by omega] at hv
    omega
  · have hpd : ord (prevDay ms) = 372 * (ms.y - 1) + 31 * 11 + 30 := by
      unfold prevDay
      rw [if_neg (by omega), dif_neg hm]
      unfold ord
      simp only []
      norm_num
    rw [hpd]
    unfold ord at h ⊢
    omega

lemma stagesGo_pos {g : String} {endD cur : SDate}
    (h : ord cur ≤ ord endD) :
    stagesGo g endD cur =
      ⟨cur, minD endD (prevDay (nextStart g cur)), stageLabel g cur⟩ ::
        stagesGo g endD (nextStart g cur) := by
  rw [stagesGo.eq_def]
  simp only [h, dite_true, dif_pos]

lemma stagesGo_neg {g : String} {endD cur : SDate}
    (h : ¬ ord cur ≤ ord endD) : stagesGo g endD cur = [] := by
  rw [stagesGo.eq_def]
  simp only [h, dite_false, dif_neg, not_false_iff]

lemma getLast?_cons_of_ne_nil {α : Type} (a : α) {l : List α} (h : l ≠ []) :
    (a :: l).getLast? = l.getLast? := by
  cases l with
  | nil => exact absurd rfl h
  | cons b r => exact List.getLast?_cons_cons

/-- Master invariant for `buildStages`: starting from any valid `cur ≤
end`, the emitted stages begin at `cur`, end at `end`, are contiguous
(each stage stops the day before the next starts), and each stage is
non-degenerate. -/
lemma stagesGo_spec (g : String) (endD : SDate) (he : ValidD endD) :
    ∀ (n : ℕ) (cur : SDate), (ord endD + 1 - ord cur).toNat ≤ n →
      ValidD cur → ord cur ≤ ord endD →
      stagesGo g endD cur ≠ [] ∧
      ((stagesGo g endD cur).head?.map Stage.start) = some cur ∧
      ((stagesGo g endD cur).getLast?.map Stage.stop) = some endD ∧
      List.Chain' (fun s1 s2 => s1.stop = prevDay s2.start)
        (stagesGo g endD cur) ∧
      ∀ st ∈ stagesGo g endD cur, ord st.start ≤ ord st.stop := by
  intro n
  induction n with
  | zero =>
    intro cur hn _ hle
    omega
  | succ n ih =>
    intro cur hn hv hle
    have hnext := ord_lt_nextStart g cur
    rw [stagesGo_pos hle]
    by_cases h2 : ord (nextStart g cur) ≤ ord endD
    · obtain ⟨hne, hhd, hlast, hch, hwf⟩ :=
        ih (nextStart g cur) (by omega) (nextStart_valid g cur) h2
      have hstop : minD endD (prevDay (nextStart g cur)) =
          prevDay (nextStart g cur) := by
        unfold minD
        rw [if_neg]
        have := ord_prevDay_lt (nextStart g cur)
        omega
      refine ⟨by simp, by simp, ?_, ?_, ?_⟩
      · rw [getLast?_cons_of_ne_nil _ hne]
        exact hlast
      · rw [List.chain'_cons']
        refine ⟨?_, hch⟩
        intro y hy
        have : (stagesGo g endD (nextStart g cur)).head?.map Stage.start =
            some ((nextStart g cur)) := hhd
        cases hhd2 : (stagesGo g endD (nextStart g cur)).head? with
        | none => rw [hhd2] at hy; simp at hy
        | some z =>
          rw [hhd2] at hy this
          simp only [Option.mem_some_iff] at hy
          subst hy
          simp at this
          simp only [hstop, this]
      · intro st hst
        rcases List.mem_cons.mp hst with rfl | hst
        · simp only [hstop]
          exact le_prevDay_of_lt hv (nextStart_d g cur) hnext
        · exact hwf st hst
    · rw [stagesGo_neg h2]
      have hstop : minD endD (prevDay (nextStart g cur)) = endD := by
        unfold minD
        rw [if_pos]
        exact le_prevDay_of_lt he (nextStart_d g cur) (by omega)
      refine ⟨by simp, by simp, ?_, ?_, ?_⟩
      · show some (minD endD (prevDay (nextStart g cur))) = some endD
        rw [hstop]
      · simp
      · intro st hst
        rcases List.mem_cons.mp hst with rfl | hst
        · simp only [hstop]
          exact hle
        · simp at hst

lemma sched_gap : buildScheduleIdx exGap 0 (2 * 86400000) "daily" = [0, 1, 1] := by
  rw [buildScheduleIdx]
  norm_num [stepDays, List.findIdx, List.findIdx.go, List.getD, exGap]
  rw [schedGo_pos (by decide)]
  norm_num [jAt, List.findIdx, List.findIdx.go, List.getD, exGap]
  rw [schedGo_pos (by decide)]
  norm_num [jAt, List.findIdx, List.findIdx.go, List.getD, exGap]
  rw [schedGo_pos (by decide)]
  norm_num [jAt, List.findIdx, List.findIdx.go, List.getD, exGap]
  rw [schedGo_neg (by decide)]

lemma sched_flat2 : buildScheduleIdx exFlat2 0 86400000 "daily" = [0, 1] := by
  rw [buildScheduleIdx]
  norm_num [stepDays, List.findIdx, List.findIdx.go, List.getD, exFlat2]
  rw [schedGo_pos (by decide)]
  norm_num [jAt, List.findIdx, List.findIdx.go, List.getD, exFlat2]
  rw [schedGo_pos (by decide)]
  norm_num [jAt, List.findIdx, List.findIdx.go, List.getD, exFlat2]
  rw [schedGo_neg (by decide)]

lemma sched_dipM : buildScheduleIdx exDip 0 86400000 "monthly" = [0] := by
  rw [buildScheduleIdx]
  norm_num [stepDays, List.findIdx, List.findIdx.go, List.getD, exDip]
  rw [schedGo_pos (by decide)]
  norm_num [jAt, List.findIdx, List.findIdx.go, List.getD, exDip]
  rw [schedGo_neg (by decide)]

lemma sched_dipD : buildScheduleIdx exDip 0 86400000 "daily" = [0, 1] := by
  rw [buildScheduleIdx]
  norm_num [stepDays, List.findIdx, List.findIdx.go, List.getD, exDip]
  rw [schedGo_pos (by decide)]
  norm_num [jAt, List.findIdx, List.findIdx.go, List.getD, exDip]
  rw [schedGo_pos (by decide)]
  norm_num [jAt, List.findIdx, List.findIdx.go, List.getD, exDip]
  rw [schedGo_neg (by decide)]

/-- Two schedule loops with equal steps agree (the positivity proof is
irrelevant). -/
lemma schedGo_congr {data : List Pt} {iStart : ℕ} {endDate : ℤ}
    {st st' : ℤ} (hss : st = st') {hs : 0 < st} {hs' : 0 < st'} {c : ℤ} :
    schedGo data iStart endDate st hs c = schedGo data iStart endDate st' hs' c := by
  subst hss
  rfl

/-! ### Claim theorems -/

/-- C1 counterexample: on a series with a two-day gap, LumpSum invests
`3 × 100` (schedule `[0,1,1]` has length 3) but DCA's sequential pointer
matches only twice, so the capital-parity claim fails as stated. -/
theorem claim_C1_cex :
    (simulateLumpSum exGap 0 (2 * 86400000) 100 "daily").cashIn ≠
      (simulateDCA exGap 0 (2 * 86400000) 100 "daily").cashIn := by
  rw [lumpSum_cashIn, dca_cashIn, sched_gap]
  norm_num [sip]

/-- C1 (amended): LumpSum's `cashIn` equals DCA's `cashIn` whenever the
schedule returned by `buildScheduleIdx` is strictly increasing (which is
the case exactly when no cursor tick repeats a position inside a data
gap); in general LumpSum invests `amount × |schedule|` while DCA invests
`amount × |longest strictly increasing prefix|`. -/
theorem claim_C1 (data : List Pt) (s e : ℤ) (a : ℚ) (f : String)
    (h : List.Chain' (· < ·) (buildScheduleIdx data s e f)) :
    (simulateLumpSum data s e a f).cashIn = (simulateDCA data s e a f).cashIn := by
  rw [lumpSum_cashIn, dca_cashIn, sip_eq_self_of_chain _ h]
  ring

/-- C1 witness: capital parity on a gap-free two-day series. -/
theorem claim_C1_witness :
    (simulateLumpSum exFlat2 0 86400000 100 "daily").cashIn =
      (simulateDCA exFlat2 0 86400000 100 "daily").cashIn :=
  claim_C1 exFlat2 0 86400000 100 "daily"
    (by rw [sched_flat2]; norm_num [List.chain'_cons])

/-- C2 counterexample: with a two-day gap in the series and daily
frequency, the schedule is `[0, 1, 1]` — positions are *not* strictly
increasing (the gap makes consecutive cursor ticks resolve to the same
position), refuting the claim's conjunction. -/
theorem claim_C2_cex :
    ¬ (List.Chain' (· < ·) (buildScheduleIdx exGap 0 (2 * 86400000) "daily") ∧
       ∀ j ∈ buildScheduleIdx exGap 0 (2 * 86400000) "daily",
         j < exGap.length) := by
  rw [sched_gap]
  intro ⟨hch, _⟩
  rw [List.chain'_cons, List.chain'_cons] at hch
  omega

/-- C2 (amended): the schedule positions are non-decreasing (consecutive
duplicates can occur when several cursor ticks land in one multi-day data
gap) and every position is within `[0, len(series))`. -/
theorem claim_C2 (data : List Pt) (s e : ℤ) (f : String) :
    List.Chain' (· ≤ ·) (buildScheduleIdx data s e f) ∧
      ∀ j ∈ buildScheduleIdx data s e f, j < data.length :=
  ⟨buildScheduleIdx_chain, fun _ hj => (mem_buildScheduleIdx hj).1⟩

/-- C2 witness: the amended claim evaluated on the gap series. -/
theorem claim_C2_witness :
    List.Chain' (· ≤ ·) (buildScheduleIdx exGap 0 (2 * 86400000) "daily") ∧
      1 < exGap.length :=
  ⟨(claim_C2 exGap 0 (2 * 86400000) "daily").1,
   (claim_C2 exGap 0 (2 * 86400000) "daily").2 1 (by rw [sched_gap]; decide)⟩

/-- C8: DCA's final invested capital is `amount` times the length of the
longest strictly-increasing prefix of the schedule (the sequential pointer
sticks at the first repeated position and never matches again); on the gap
series this differs from `amount` times the full schedule length. -/
theorem claim_C8 :
    (∀ (data : List Pt) (s e : ℤ) (a : ℚ) (f : String),
      (simulateDCA data s e a f).cashIn =
        a * ((sip (buildScheduleIdx data s e f)).length : ℚ)) ∧
    (simulateDCA exGap 0 (2 * 86400000) 100 "daily").cashIn ≠
      100 * (((buildScheduleIdx exGap 0 (2 * 86400000) "daily").length : ℕ) : ℚ) := by
  constructor
  · intro data s e a f
    exact dca_cashIn data s e a f
  · rw [dca_cashIn, sched_gap]
    norm_num [sip]

/-- C10: `'daily'` maps to a 1-day step, `'weekly'` to 7 days, and every
other frequency string — `'monthly'` or unrecognized — to 30 days, so an
invalid frequency produces exactly the monthly schedule. -/
theorem claim_C10 :
    stepDays "daily" = 1 ∧ stepDays "weekly" = 7 ∧
    ∀ f : String, f ≠ "daily" → f ≠ "weekly" →
      stepDays f = 30 ∧
      ∀ (data : List Pt) (s e : ℤ),
        buildScheduleIdx data s e f = buildScheduleIdx data s e "monthly" := by
  refine ⟨rfl, rfl, ?_⟩
  intro f h1 h2
  have h30 : stepDays f = 30 := by
    unfold stepDays
    rw [if_neg h1, if_neg h2]
  refine ⟨h30, ?_⟩
  intro data s e
  unfold buildScheduleIdx
  dsimp only
  split
  · exact schedGo_congr (by rw [h30]; rfl)
  · rfl

/-- C10 witness: an unrecognized frequency behaves exactly like
`'monthly'`. -/
theorem claim_C10_witness :
    stepDays "biweekly" = 30 ∧
      buildScheduleIdx exGap 0 (2 * 86400000) "biweekly" =
        buildScheduleIdx exGap 0 (2 * 86400000) "monthly" := by
  obtain ⟨hs, hb⟩ := claim_C10.2.2 "biweekly" (by decide) (by decide)
  exact ⟨hs, hb exGap 0 (2 * 86400000)⟩

/-- C9: DipBuy and TrendDCA test scheduled days by set membership, so a
repeated schedule position contributes `amount` exactly once: their final
`cashIn` is `amount` times the number of *distinct* scheduled positions,
which on the gap series is strictly less than LumpSum's
`amount × |schedule|`. -/
theorem claim_C9 :
    (∀ (data : List Pt) (s e : ℤ) (a : ℚ) (f : String) (dp : ℚ),
      (simulateDipBuy data s e a f dp).cashIn =
        a * (((buildScheduleIdx data s e f).dedup.length : ℕ) : ℚ)) ∧
    (∀ (data : List Pt) (s e : ℤ) (a : ℚ) (f : String) (maN : ℕ),
      (simulateTrendDCA data s e a f maN).cashIn =
        a * (((buildScheduleIdx data s e f).dedup.length : ℕ) : ℚ)) ∧
    (simulateDipBuy exGap 0 (2 * 86400000) 100 "daily" (1/5)).cashIn <
      (simulateLumpSum exGap 0 (2 * 86400000) 100 "daily").cashIn := by
  have hdip : ∀ (data : List Pt) (s e : ℤ) (a : ℚ) (f : String) (dp : ℚ),
      (simulateDipBuy data s e a f dp).cashIn =
        a * (((buildScheduleIdx data s e f).dedup.length : ℕ) : ℚ) := by
    intro data s e a f dp
    unfold simulateDipBuy
    dsimp only
    rw [dipGo_cashIn]
    rw [contribCount_dedup data _ s e
      (fun x hx => ⟨(mem_buildScheduleIdx hx).1,
        (mem_buildScheduleIdx hx).2.1, (mem_buildScheduleIdx hx).2.2⟩)]
    ring
  refine ⟨hdip, ?_, ?_⟩
  · intro data s e a f maN
    unfold simulateTrendDCA
    dsimp only
    rw [trendGo_cashIn]
    rw [contribCount_dedup data _ s e
      (fun x hx => ⟨(mem_buildScheduleIdx hx).1,
        (mem_buildScheduleIdx hx).2.1, (mem_buildScheduleIdx hx).2.2⟩)]
    ring
  · rw [hdip, lumpSum_cashIn, sched_gap]
    norm_num

/-- C3 counterexample: with `amount = -100` (the claim explicitly includes
`amount ≤ 0`), DCA's `cumulativeCashIn` column strictly decreases, so the
non-decreasing invariant fails as stated. -/
theorem claim_C3_cex :
    ¬ List.Chain' MonoCU ((simulateDCA exFlat2 0 86400000 (-100) "daily").timeline) := by
  unfold simulateDCA
  dsimp only
  rw [sched_flat2]
  norm_num [dcaGo, inWin, exFlat2, MonoCU, List.chain'_cons, List.getD]

/-- C3 (amended): for a non-negative contribution amount and positive
prices, `cumulativeCashIn` and `unitsHeld` are non-decreasing from each
timeline entry to the next in all four strategies. -/
theorem claim_C3 (data : List Pt) (s e : ℤ) (a : ℚ) (f : String)
    (dp : ℚ) (maN : ℕ) (ha : 0 ≤ a) (hp : ∀ pt ∈ data, 0 < pt.p) :
    List.Chain' MonoCU (simulateDCA data s e a f).timeline ∧
    List.Chain' MonoCU (simulateLumpSum data s e a f).timeline ∧
    List.Chain' MonoCU (simulateDipBuy data s e a f dp).timeline ∧
    List.Chain' MonoCU (simulateTrendDCA data s e a f maN).timeline := by
  refine ⟨?_, lumpSum_mono data s e a f, ?_, ?_⟩
  · unfold simulateDCA
    dsimp only
    exact (dcaGo_mono _ s e a ha data hp 0 0 0 0).1
  · unfold simulateDipBuy
    dsimp only
    exact (dipGo_mono _ s e a dp ha data hp 0 0 0 0 none).1
  · unfold simulateTrendDCA
    dsimp only
    exact (trendGo_mono _ _ s e a maN ha data hp 0 0 0 0).1

/-- C3 witness: the four monotone timelines on the falling-price series
with a positive amount. -/
theorem claim_C3_witness :
    List.Chain' MonoCU (simulateDCA exDip 0 86400000 100 "monthly").timeline ∧
    List.Chain' MonoCU (simulateLumpSum exDip 0 86400000 100 "monthly").timeline ∧
    List.Chain' MonoCU (simulateDipBuy exDip 0 86400000 100 "monthly" (1/5)).timeline ∧
    List.Chain' MonoCU (simulateTrendDCA exDip 0 86400000 100 "monthly" 200).timeline :=
  claim_C3 exDip 0 86400000 100 "monthly" (1/5) 200 (by norm_num)
    (by
      intro pt hpt
      unfold exDip at hpt
      rcases List.mem_cons.mp hpt with rfl | hpt
      · norm_num
      · rcases List.mem_cons.mp hpt with rfl | hpt
        · norm_num
        · simp at hpt)

/-- C4 counterexample: the claim's trigger condition says "cashPile is
non-zero", but the source requires `cashPile > 0`.  With `amount = -100`
the pile on the crash day is `-200 ≠ 0` and the drawdown `1/2` exceeds
`dipPct = 1/5`, yet nothing is deployed: `unitsHeld` stays `0` and the
pile is not reset. -/
theorem claim_C4_cex :
    ((simulateDipBuy exDip 0 86400000 (-100) "daily" (1/5)).timeline.map
      (fun en => (en.units, en.cashPile))) = [(0, -100), (0, -200)] ∧
    (1 / 5 : ℚ) ≤ (100 - 50) / 100 ∧ (-200 : ℚ) ≠ 0 := by
  refine ⟨?_, by norm_num, by norm_num⟩
  unfold simulateDipBuy
  dsimp only
  rw [sched_dipD]
  norm_num [dipGo, inWin, exDip, lastValue, List.contains_eq_any_beq, max_def]

/-- C4 (amended): on every in-window day whose updated running peak is
non-zero, whose drawdown `(peak - price)/peak` reaches `dipPct`, and whose
accumulated `cashPile` is *positive* (not merely non-zero), the DipBuy
step converts the entire pile into `cashPile / price` units and resets the
pile to `0`; every timeline entry satisfies
`value = units * price + cashPile`; and the concrete 100→50 scenario
deploys the whole 100 pile at price 50, yielding 2 units and end value
100. -/
theorem claim_C4 :
    (∀ (sch : List ℕ) (s e : ℤ) (a dp : ℚ) (i : ℕ) (pt : Pt)
       (rest : List Pt) (c u pile : ℚ) (peak : Option ℚ),
       inWin s e pt →
       ∀ pile' peak' : ℚ,
         pile' = (if (sch.contains i : Bool) then pile + a else pile) →
         peak' = peak.elim pt.p (fun q => max q pt.p) →
         peak' ≠ 0 → dp ≤ (peak' - pt.p) / peak' → 0 < pile' →
         ((dipGo sch s e a dp i (pt :: rest) c u pile peak).2.2.2.head?.map
           (fun en => (en.units, en.cashPile))) = some (u + pile' / pt.p, 0)) ∧
    (∀ (data : List Pt) (s e : ℤ) (a : ℚ) (f : String) (dp : ℚ),
       ∀ en ∈ (simulateDipBuy data s e a f dp).timeline,
         en.value = en.units * en.p + en.cashPile) ∧
    ((simulateDipBuy exDip 0 86400000 100 "monthly" (1/5)).units = 2 ∧
     (simulateDipBuy exDip 0 86400000 100 "monthly" (1/5)).endValue = 100 ∧
     ((simulateDipBuy exDip 0 86400000 100 "monthly" (1/5)).timeline.map
       (fun en => (en.units, en.cashPile))) = [(0, 100), (2, 0)]) := by
  refine ⟨?_, ?_, ?_, ?_, ?_⟩
  · intro sch s e a dp i pt rest c u pile peak hw pile' peak' hpile hpeak
      hne hdd hpos
    rw [dipGo_cons_win hw]
    dsimp only
    have hdec : decide ((peak.elim pt.p (fun q => max q pt.p)) ≠ 0 ∧
        dp ≤ ((peak.elim pt.p (fun q => max q pt.p)) - pt.p) /
          (peak.elim pt.p (fun q => max q pt.p)) ∧
        0 < (if (sch.contains i : Bool) then pile + a else pile)) = true := by
      rw [← hpeak, ← hpile]
      exact decide_eq_true ⟨hne, hdd, hpos⟩
    rw [hdec]
    simp only [if_true, List.head?_cons]
    rw [← hpile]
    simp
  · intro data s e a f dp en hen
    unfold simulateDipBuy at hen
    dsimp only at hen
    exact dipGo_value _ s e a dp data 0 0 0 0 none en hen
  · unfold simulateDipBuy
    dsimp only
    rw [sched_dipM]
    norm_num [dipGo, inWin, exDip, lastValue, List.contains_eq_any_beq, max_def]
  · unfold simulateDipBuy
    dsimp only
    rw [sched_dipM]
    norm_num [dipGo, inWin, exDip, lastValue, List.contains_eq_any_beq, max_def]
  · unfold simulateDipBuy
    dsimp only
    rw [sched_dipM]
    norm_num [dipGo, inWin, exDip, lastValue, List.contains_eq_any_beq, max_def]

/-- C4 witness: the deploy step applied at a concrete state — a single
in-window day with a fresh contribution of 100 at price 100, threshold 0 —
deploys the whole pile and resets it. -/
theorem claim_C4_witness :
    ((dipGo [0] 0 0 100 0 0 [⟨0, 100⟩] 0 0 0 none).2.2.2.head?.map
      (fun en => (en.units, en.cashPile))) = some (0 + 100 / 100, 0) :=
  claim_C4.1 [0] 0 0 100 0 0 ⟨0, 100⟩ [] 0 0 0 none (by decide) 100 100
    (by norm_num [List.contains_eq_any_beq]) (by norm_num) (by norm_num)
    (by norm_num) (by norm_num)

/-- C5 counterexample: for a timeline whose first entry has value `0`
(`prev ≤ 0`), the source still pushes `r = 0` (it is finite), so the
returns collection is *not* the claim's collection that skips such
pairs. -/
theorem claim_C5_cex :
    retsOf [⟨0, 0, 0, 0, 0, 0, none⟩, ⟨0, 0, 0, 0, 5, 0, none⟩] ≠
      specRetsC5 [⟨0, 0, 0, 0, 0, 0, none⟩, ⟨0, 0, 0, 0, 5, 0, none⟩] := by
  norm_num [retsOf, specRetsC5]

/-- C5 (amended): the returns collection holds exactly one element per
adjacent pair — `cur/prev - 1` when `prev > 0` and `0` otherwise (a pair
with `prev ≤ 0` contributes a zero return rather than being skipped);
`annualizedVolatility` is `sqrt(variance) * sqrt(365)` where, for `n ≥ 2`
returns, the variance divides the squared deviations by `n - 1`
(Bessel's correction). -/
theorem claim_C5 :
    (∀ tl : List TLE,
      retsOf tl = (tl.zip tl.tail).map
        (fun ab => if 0 < ab.1.value then ab.2.value / ab.1.value - 1 else 0)) ∧
    (∀ (tl : List TLE) (m : Metrics), metricsFromTimeline tl = some m →
      m.volAnn = Real.sqrt ((varOf (retsOf tl) : ℚ) : ℝ) * Real.sqrt 365) ∧
    (∀ rets : List ℚ, 2 ≤ rets.length →
      varOf rets =
        (rets.map (fun x => (x - meanOf rets) ^ 2)).sum /
          ((rets.length : ℚ) - 1)) := by
  refine ⟨retsOf_zip, metrics_volAnn, ?_⟩
  intro rets h2
  unfold varOf
  rw [max_eq_right]
  have : (2 : ℚ) ≤ (rets.length : ℚ) := by exact_mod_cast h2
  linarith

/-- C5 witness: the Bessel divisor on a concrete two-element return
list. -/
theorem claim_C5_witness :
    varOf [0, 1] =
      (([0, 1] : List ℚ).map (fun x => (x - meanOf [0, 1]) ^ 2)).sum /
        ((([0, 1] : List ℚ).length : ℚ) - 1) :=
  claim_C5.2.2 [0, 1] (by norm_num)

/-- C6: when the series is empty or no sample lies in `[start, end]`, all
four simulators return the empty timeline with the zeroed summary, and
`metricsFromTimeline` on the empty timeline is the empty record. -/
theorem claim_C6 (data : List Pt) (s e : ℤ) (a : ℚ) (f : String)
    (dp : ℚ) (maN : ℕ)
    (h : data = [] ∨ ∀ pt ∈ data, ¬ inWin s e pt) :
    simulateDCA data s e a f = ⟨[], 0, 0, 0⟩ ∧
    simulateLumpSum data s e a f = ⟨[], 0, 0, 0⟩ ∧
    simulateDipBuy data s e a f dp = ⟨[], 0, 0, 0⟩ ∧
    simulateTrendDCA data s e a f maN = ⟨[], 0, 0, 0⟩ ∧
    metricsFromTimeline ([] : List TLE) = none := by
  have hnw : ∀ pt ∈ data, ¬ inWin s e pt := by
    rcases h with rfl | h
    · intro pt hpt
      simp at hpt
    · exact h
  refine ⟨?_, ?_, ?_, ?_, rfl⟩
  · unfold simulateDCA
    dsimp only
    rw [dcaGo_empty _ s e a data hnw 0 0 0 0]
    rfl
  · unfold simulateLumpSum
    dsimp only
    by_cases hfi : data.findIdx (fun d => decide (s ≤ d.t)) < data.length
    · rw [if_pos hfi]
      have hsch := buildScheduleIdx_empty data s e f hnw
      have htl : (data.drop (data.findIdx
          (fun d => decide (s ≤ d.t)))).takeWhile
            (fun d => decide (d.t ≤ e)) = [] := by
        rw [List.drop_eq_getElem_cons hfi, List.takeWhile_cons]
        have hs1 := findIdx_start_spec data s hfi
        rw [List.getD_eq_getElem _ _ hfi] at hs1
        have hmem : data[data.findIdx (fun d => decide (s ≤ d.t))] ∈ data :=
          List.getElem_mem _
        have hnin := hnw _ hmem
        have hnle : ¬ (data[data.findIdx
            (fun d => decide (s ≤ d.t))].t ≤ e) :=
          fun hle => hnin ⟨hs1, hle⟩
        simp [hnle]
      rw [hsch, htl]
      simp [lastValue]
    · rw [if_neg hfi]
  · unfold simulateDipBuy
    dsimp only
    rw [dipGo_empty _ s e a dp data hnw 0 0 0 0 none]
    rfl
  · unfold simulateTrendDCA
    dsimp only
    rw [trendGo_empty _ _ s e a maN data hnw 0 0 0 0]
    rfl

/-- C6 witness: a one-sample series dated before the window. -/
theorem claim_C6_witness :
    simulateDCA [⟨0, 100⟩] 86400000 (2 * 86400000) 100 "daily" = ⟨[], 0, 0, 0⟩ ∧
    simulateLumpSum [⟨0, 100⟩] 86400000 (2 * 86400000) 100 "daily" = ⟨[], 0, 0, 0⟩ ∧
    simulateDipBuy [⟨0, 100⟩] 86400000 (2 * 86400000) 100 "daily" (1/5) = ⟨[], 0, 0, 0⟩ ∧
    simulateTrendDCA [⟨0, 100⟩] 86400000 (2 * 86400000) 100 "daily" 200 = ⟨[], 0, 0, 0⟩ ∧
    metricsFromTimeline ([] : List TLE) = none :=
  claim_C6 [⟨0, 100⟩] 86400000 (2 * 86400000) 100 "daily" (1/5) 200
    (Or.inr (by decide))

/-- C7: for any valid `start ≤ end` and any granularity, `buildStages`
tiles `[start, end]` exactly — the list is non-empty, its first stage
starts at `start`, its last stage ends at `end`, every stage ends exactly
one day before the next begins (no gaps, no overlaps), and every stage is
non-degenerate. -/
theorem claim_C7 (start endD : SDate) (g : String)
    (hvs : ValidD start) (hve : ValidD endD) (hle : ord start ≤ ord endD) :
    buildStages start endD g ≠ [] ∧
    ((buildStages start endD g).head?.map Stage.start) = some start ∧
    ((buildStages start endD g).getLast?.map Stage.stop) = some endD ∧
    List.Chain' (fun s1 s2 => s1.stop = prevDay s2.start)
      (buildStages start endD g) ∧
    ∀ st ∈ buildStages start endD g, ord st.start ≤ ord st.stop := by
  unfold buildStages
  exact stagesGo_spec g endD hve ((ord endD + 1 - ord start).toNat) start
    le_rfl hvs hle

/-- C7 witness: monthly stages from 2020-01-01 to 2020-02-11. -/
theorem claim_C7_witness :
    buildStages ⟨2020, 0, 0⟩ ⟨2020, 1, 10⟩ "month" ≠ [] ∧
    ((buildStages ⟨2020, 0, 0⟩ ⟨2020, 1, 10⟩ "month").head?.map Stage.start) =
      some ⟨2020, 0, 0⟩ ∧
    ((buildStages ⟨2020, 0, 0⟩ ⟨2020, 1, 10⟩ "month").getLast?.map Stage.stop) =
      some ⟨2020, 1, 10⟩ ∧
    List.Chain' (fun s1 s2 => s1.stop = prevDay s2.start)
      (buildStages ⟨2020, 0, 0⟩ ⟨2020, 1, 10⟩ "month") ∧
    ∀ st ∈ buildStages ⟨2020, 0, 0⟩ ⟨2020, 1, 10⟩ "month",
      ord st.start ≤ ord st.stop :=
  claim_C7 ⟨2020, 0, 0⟩ ⟨2020, 1, 10⟩ "month" (by decide) (by decide)
    (by decide)
